import Mathlib

/-!
Shallow embedding of the `useIsAiming` menu-aim engine
(`src/useIsAiming/useIsAiming.ts`) of the kommo-crm/react-hooks repository.

The geometry kernel is embedded polymorphically over a `LinearOrderedField`,
so that the very same definitions are executable on `ℚ` (the exact-arithmetic
idealisation of the JavaScript float computations) and can be interpreted on
`ℝ` inside proofs.  The float literals `1e-10` and `1e-6` of the source are
embedded as the exact rationals `1 / 10 ^ 10` and `1 / 10 ^ 6`.

The stateful hook body is embedded as an explicit state machine over `ℚ`:
mutable refs become record fields, the `handler` callback becomes a list of
emitted notification values, and the idle timer becomes an optional absolute
deadline.  `Math.sqrt` (used only to accumulate the Euclidean movement
distance) is not rational-valued, so the pointer-move step is parametrised by
the square-root function; every engine theorem is proved for an arbitrary
such function.
-/

set_option maxRecDepth 400000

namespace ReactHooks

/-- A 2D point, source interface `Point` of `useIsAiming.types.ts`. -/
structure Point (α : Type*) where
  x : α
  y : α
deriving DecidableEq, Repr

/-- The four rectangle vertices in source order top-left, top-right,
bottom-right, bottom-left (result of `getElementVertices`). -/
structure Quad (α : Type*) where
  tl : Point α
  tr : Point α
  br : Point α
  bl : Point α
deriving DecidableEq, Repr

/-- A triangle given by its three vertices. -/
structure Tri (α : Type*) where
  a : Point α
  b : Point α
  c : Point α
deriving DecidableEq, Repr

/-- The bounding rectangle of the target element
(`el.getBoundingClientRect()`). -/
structure Rect (α : Type*) where
  left : α
  top : α
  right : α
  bottom : α
deriving DecidableEq, Repr

variable {α : Type*} [LinearOrderedField α]

/-- Source `cross`: cross product of the vectors OA and OB. -/
def cross (o a b : Point α) : α :=
  (a.x - o.x) * (b.y - o.y) - (a.y - o.y) * (b.x - o.x)

/-- Source `pointInTriangle`: sign-of-area membership test; boundary points
count as inside. -/
def pointInTriangle (p a b c : Point α) : Bool :=
  let d1 := cross p a b
  let d2 := cross p b c
  let d3 := cross p c a
  let hasNeg := decide (d1 < 0) || decide (d2 < 0) || decide (d3 < 0)
  let hasPos := decide (0 < d1) || decide (0 < d2) || decide (0 < d3)
  !(hasNeg && hasPos)

/-- Source `triangleArea`: absolute triangle area. -/
def triangleArea (a b c : Point α) : α :=
  |cross a b c| / 2

/-- Source `getElementVertices`: rectangle vertices in page coordinates,
order top-left, top-right, bottom-right, bottom-left. -/
def getElementVertices (el : Rect α) (scrollX scrollY : α) : Quad α where
  tl := ⟨el.left + scrollX, el.top + scrollY⟩
  tr := ⟨el.right + scrollX, el.top + scrollY⟩
  br := ⟨el.right + scrollX, el.bottom + scrollY⟩
  bl := ⟨el.left + scrollX, el.bottom + scrollY⟩

/-- The signed double area accumulated by the loop of source `polygonArea`:
for each index `i` with cyclic successor `j` it adds
`points[i].x * points[j].y - points[j].x * points[i].y`. -/
def shoelaceSum (pts : List (Point α)) : α :=
  ((pts.zip (pts.rotate 1)).map fun pq => pq.1.x * pq.2.y - pq.2.x * pq.1.y).sum

/-- Source `polygonArea`: shoelace formula, `0` for fewer than 3 points. -/
def polygonArea (pts : List (Point α)) : α :=
  if pts.length < 3 then 0 else |shoelaceSum pts| / 2

/-- Exact embedding of the float literal `1e-10` (denominator epsilon of
`lineSegmentIntersection`). -/
def denomEps : α := 1 / 10 ^ 10

/-- Exact embedding of the float literal `1e-6` (duplicate-point epsilon of
`clipTriangleByRectangle`). -/
def dedupEps : α := 1 / 10 ^ 6

/-- The parametric denominator of source `lineSegmentIntersection`. -/
def interDenom (p1 p2 p3 p4 : Point α) : α :=
  (p4.y - p3.y) * (p2.x - p1.x) - (p4.x - p3.x) * (p2.y - p1.y)

/-- The first segment parameter `ua` of source `lineSegmentIntersection`. -/
def interUA (p1 p2 p3 p4 : Point α) : α :=
  ((p4.x - p3.x) * (p1.y - p3.y) - (p4.y - p3.y) * (p1.x - p3.x)) /
    interDenom p1 p2 p3 p4

/-- The second segment parameter `ub` of source `lineSegmentIntersection`. -/
def interUB (p1 p2 p3 p4 : Point α) : α :=
  ((p2.x - p1.x) * (p1.y - p3.y) - (p2.y - p1.y) * (p1.x - p3.x)) /
    interDenom p1 p2 p3 p4

/-- Source `lineSegmentIntersection`: parametric segment intersection,
`none` for near-parallel segments or parameters outside `[0, 1]`. -/
def lineSegmentIntersection (p1 p2 p3 p4 : Point α) : Option (Point α) :=
  if |interDenom p1 p2 p3 p4| < denomEps then none
  else
    let ua := interUA p1 p2 p3 p4
    let ub := interUB p1 p2 p3 p4
    if ua < 0 ∨ 1 < ua ∨ ub < 0 ∨ 1 < ub then none
    else some ⟨p1.x + ua * (p2.x - p1.x), p1.y + ua * (p2.y - p1.y)⟩

/-- Source `pointInRectangle`: axis-aligned box test computed from the four
vertices. -/
def pointInRectangle (p : Point α) (q : Quad α) : Bool :=
  let minX := min q.tl.x q.bl.x
  let maxX := max q.tr.x q.br.x
  let minY := min q.tl.y q.tr.y
  let maxY := max q.bl.y q.br.y
  decide (minX ≤ p.x) && decide (p.x ≤ maxX) && decide (minY ≤ p.y) && decide (p.y ≤ maxY)

/-- The z-component of the cross product of two plane vectors. -/
def crossZ (v w : Point α) : α := v.x * w.y - v.y * w.x

/-- Quadrant class of a vector in the ascending `Math.atan2` order on
`(-pi, pi]`: `0` for the open lower half plane, `1` for the non-negative
x-axis (where `atan2` is `0`, including the zero vector), `2` for the open
upper half plane, `3` for the negative x-axis (where `atan2` is `pi`). -/
def angClass (v : Point α) : ℕ :=
  if v.y < 0 then 0
  else if v.y = 0 ∧ 0 ≤ v.x then 1
  else if 0 < v.y then 2
  else 3

/-- Exact decision of `atan2(v.y, v.x) ≤ atan2(w.y, w.x)`: compare quadrant
classes first, inside a common class compare by the sign of the cross
product.  This is the exact-arithmetic meaning of the comparator
`angle1 - angle2` used by the sort of source `clipTriangleByRectangle`. -/
def angLEp (v w : Point α) : Prop :=
  angClass v < angClass w ∨ (angClass v = angClass w ∧ ¬0 < crossZ w v)

instance angLEp.instDecidable (v w : Point α) : Decidable (angLEp v w) :=
  inferInstanceAs (Decidable (_ ∨ _ ∧ ¬_))

/-- The comparator on clip points: angle around the centroid `(cx, cy)`. -/
def angleOrder (cx cy : α) (p q : Point α) : Prop :=
  angLEp ⟨p.x - cx, p.y - cy⟩ ⟨q.x - cx, q.y - cy⟩

instance angleOrder.instDecidable (cx cy : α) (p q : Point α) :
    Decidable (angleOrder cx cy p q) :=
  inferInstanceAs (Decidable (angLEp _ _))

/-- Strict version of `angLEp`: exact decision of
`atan2(v.y, v.x) < atan2(w.y, w.x)`. -/
def angLTp (v w : Point α) : Prop :=
  angClass v < angClass w ∨ (angClass v = angClass w ∧ 0 < crossZ v w)

/-- A point as a plain pair, for interpreting the geometry inside `ℝ × ℝ`. -/
def toVec (p : Point α) : α × α := (p.x, p.y)

/-- Cross product on plain pairs. -/
def vcross (v w : α × α) : α := v.1 * w.2 - v.2 * w.1

/-- Interpretation of a rational point in the real plane (the exact reading
of the program's floating-point points used for the measure-theoretic area
arguments). -/
def castPoint (p : Point ℚ) : Point ℝ := ⟨(p.x : ℝ), (p.y : ℝ)⟩

/-- The vector from `c` to `p`, as a point. -/
def subPoint (p c : Point α) : Point α := ⟨p.x - c.x, p.y - c.y⟩

/-- The closed standard triangle in the parameter plane. -/
def stdTriSet : Set (ℝ × ℝ) := {z | 0 ≤ z.1 ∧ 0 ≤ z.2 ∧ z.1 + z.2 ≤ 1}

/-- The closed triangle with apex `p` and sides `u`, `v`, as the affine
image of the standard triangle. -/
def triSet (p u v : ℝ × ℝ) : Set (ℝ × ℝ) :=
  (fun z : ℝ × ℝ => p + z.1 • u + z.2 • v) '' stdTriSet

/-- The line through `p` with direction `v`. -/
def lineThrough (p v : ℝ × ℝ) : Set (ℝ × ℝ) := {z | vcross v (z - p) = 0}

/-- The four rectangle edges of source `clipTriangleByRectangle`, in source
order. -/
def rectEdges (q : Quad α) : List (Point α × Point α) :=
  [(q.tl, q.tr), (q.tr, q.br), (q.br, q.bl), (q.bl, q.tl)]

/-- The three triangle edges of source `clipTriangleByRectangle`, in source
order. -/
def triEdges (t : Tri α) : List (Point α × Point α) :=
  [(t.a, t.b), (t.b, t.c), (t.c, t.a)]

/-- The duplicate-removal loop of source `clipTriangleByRectangle`: keep a
point only when no previously kept point is within `1e-6` on both axes. -/
def dedupPoints (pts : List (Point α)) : List (Point α) :=
  pts.foldl
    (fun acc p =>
      if acc.any fun e => decide (|e.x - p.x| < dedupEps) && decide (|e.y - p.y| < dedupEps)
      then acc else acc ++ [p])
    []

/-- The x-coordinate of the centroid used by the sort of source
`clipTriangleByRectangle`. -/
def centroidX (pts : List (Point α)) : α :=
  (pts.map Point.x).sum / (pts.length : α)

/-- The y-coordinate of the centroid used by the sort of source
`clipTriangleByRectangle`. -/
def centroidY (pts : List (Point α)) : α :=
  (pts.map Point.y).sum / (pts.length : α)

/-- The collected candidate points of source `clipTriangleByRectangle`:
triangle vertices inside the rectangle, then all triangle-edge /
rectangle-edge intersection points. -/
def clipCandidates (t : Tri α) (q : Quad α) : List (Point α) :=
  ([t.a, t.b, t.c].filter fun p => pointInRectangle p q) ++
    (triEdges t).flatMap fun te =>
      (rectEdges q).filterMap fun re => lineSegmentIntersection te.1 te.2 re.1 re.2

/-- Source `clipTriangleByRectangle`: triangle vertices inside the rectangle
plus all triangle-edge/rectangle-edge intersection points, deduplicated with
tolerance `1e-6`, and (when at least three points remain) sorted by angle
around their centroid. -/
def clipTriangleByRectangle (t : Tri α) (q : Quad α) : List (Point α) :=
  let uniquePoints := dedupPoints (clipCandidates t q)
  if uniquePoints.length < 3 then []
  else
    uniquePoints.insertionSort
      (angleOrder (centroidX uniquePoints) (centroidY uniquePoints))

/-- Source `triangleRectangleOverlapArea`: area of the clipped polygon, `0`
when the clip degenerates. -/
def triangleRectangleOverlapArea (cursor a b : Point α) (q : Quad α) : α :=
  let intersectionPolygon := clipTriangleByRectangle ⟨cursor, a, b⟩ q
  if intersectionPolygon.length < 3 then 0 else polygonArea intersectionPolygon

/-- Vertex of a `Quad` by source index (`vertices[0] .. vertices[3]`). -/
def quadVertex (q : Quad α) : ℕ → Point α
  | 0 => q.tl
  | 1 => q.tr
  | 2 => q.br
  | _ => q.bl

/-- The six candidate index pairs of source `findBestIntentEdge`, in
iteration order. -/
def edgePairs : List (ℕ × ℕ) := [(0, 1), (0, 2), (0, 3), (1, 2), (1, 3), (2, 3)]

/-- Outside area of the candidate triangle for one vertex pair: triangle
area minus the overlap with the rectangle. -/
def outsideArea (cursor : Point α) (q : Quad α) (ij : ℕ × ℕ) : α :=
  triangleArea cursor (quadVertex q ij.1) (quadVertex q ij.2) -
    triangleRectangleOverlapArea cursor (quadVertex q ij.1) (quadVertex q ij.2) q

/-- Source `findBestIntentEdge`: fold over the six pairs keeping the first
pair whose outside area strictly exceeds the running maximum
(initialised to `-1`). -/
def findBestIntentEdge (cursor : Point α) (q : Quad α) : Option (Point α × Point α) :=
  (edgePairs.foldl
    (fun acc ij =>
      if acc.2 < outsideArea cursor q ij
      then (some (quadVertex q ij.1, quadVertex q ij.2), outsideArea cursor q ij)
      else acc)
    ((none : Option (Point α × Point α)), (-1 : α))).1

/-- Source `isMovingTowardTriangle`. -/
def isMovingTowardTriangle (prev current edgeA edgeB : Point α) : Bool :=
  pointInTriangle current prev edgeA edgeB

/-- Mutable-ref state of one `useIsAiming` instance.  `notifications` is the
list of values passed to the `handler` callback so far, in call order. -/
structure EngineState where
  isAiming : Bool
  lastCursor : Option (Point ℚ)
  prevCursor : Option (Point ℚ)
  lastRecalcCursor : Option (Point ℚ)
  accumulatedMovement : ℚ
  idleDeadline : Option ℚ
  notifications : List Bool
deriving DecidableEq, Repr

/-- Hook options together with the environment read by `getElementVertices`:
the registered target element (`ref.current`, `none` when unattached) and the
page scroll offsets. -/
structure EngineConfig where
  tolerance : ℚ
  idleTimeout : ℚ
  element : Option (Rect ℚ)
  scrollX : ℚ
  scrollY : ℚ
deriving DecidableEq, Repr

/-- The initial state of the refs at mount. -/
def initialState : EngineState :=
  { isAiming := false, lastCursor := none, prevCursor := none,
    lastRecalcCursor := none, accumulatedMovement := 0, idleDeadline := none,
    notifications := [] }

/-- Source `setIsAiming`: stores the value and invokes the handler. -/
def setIsAiming (value : Bool) (s : EngineState) : EngineState :=
  { s with isAiming := value, notifications := s.notifications ++ [value] }

/-- Source `recalc`: one synchronous recalculation of the aiming state. -/
def recalc (cfg : EngineConfig) (s : EngineState) : EngineState :=
  match s.lastCursor, s.prevCursor, cfg.element with
  | some cursor, some prev, some el =>
    let vertices := getElementVertices el cfg.scrollX cfg.scrollY
    if pointInRectangle cursor vertices then
      { setIsAiming false s with
          lastRecalcCursor := some cursor, accumulatedMovement := 0 }
    else
      match findBestIntentEdge cursor vertices with
      | none =>
        { setIsAiming false s with
            accumulatedMovement := 0, lastRecalcCursor := some cursor }
      | some edge =>
        let aiming := isMovingTowardTriangle prev cursor edge.1 edge.2
        if s.isAiming && !aiming && decide (s.accumulatedMovement < cfg.tolerance)
        then s
        else
          { setIsAiming aiming s with
              accumulatedMovement := 0, lastRecalcCursor := some cursor }
  | _, _, _ =>
    { setIsAiming false s with
        lastRecalcCursor := none, accumulatedMovement := 0 }

/-- Source `onMouseMove` handler, parametrised by the square-root function
used for the movement distance and by the absolute event time used for the
idle deadline: shift cursors, accumulate movement, clear the idle timer,
recalculate synchronously, rearm the idle timer. -/
def onMouseMove (cfg : EngineConfig) (sqrtFn : ℚ → ℚ) (s : EngineState)
    (eventTime : ℚ) (p : Point ℚ) : EngineState :=
  let oldCursor := s.lastCursor
  let s1 := { s with prevCursor := s.lastCursor, lastCursor := some p }
  let s2 := match oldCursor with
    | some o =>
      { s1 with accumulatedMovement := s1.accumulatedMovement +
          sqrtFn ((p.x - o.x) * (p.x - o.x) + (p.y - o.y) * (p.y - o.y)) }
    | none => s1
  let s3 := { s2 with idleDeadline := none }
  let s4 := recalc cfg s3
  { s4 with idleDeadline := some (eventTime + cfg.idleTimeout) }

/-- Effect of the idle-timeout callback firing: force the state to
not-aiming, reset the movement accumulator and the recalculation baseline. -/
def fireIdleTimeout (s : EngineState) : EngineState :=
  { setIsAiming false s with
      accumulatedMovement := 0, lastRecalcCursor := none, idleDeadline := none }

/-- The aiming value observed at absolute time `t`, assuming no further
pointer events: if the pending idle deadline has passed, the timeout has
fired and forced the state to `false`; otherwise the stored value stands. -/
def aimingAt (s : EngineState) (t : ℚ) : Bool :=
  match s.idleDeadline with
  | some d => if d ≤ t then false else s.isAiming
  | none => s.isAiming

/-- A sample engine configuration used in concrete witnesses: the target
rectangle of the repository's test suite and of spec scenario 1. -/
def sampleConfig : EngineConfig :=
  { tolerance := 20, idleTimeout := 500, element := some ⟨200, 100, 300, 300⟩,
    scrollX := 0, scrollY := 0 }

/-- A sample engine state used in concrete witnesses: aiming, with a small
accumulated movement, cursor moving away from the sample rectangle. -/
def sampleAimingState : EngineState :=
  { isAiming := true, lastCursor := some ⟨50, 155⟩, prevCursor := some ⟨100, 160⟩,
    lastRecalcCursor := some ⟨100, 160⟩, accumulatedMovement := 5,
    idleDeadline := none, notifications := [] }

section Theorems

variable {α : Type*} [LinearOrderedField α]

theorem foldl_mem_of_step (f : List (Point α) → Point α → List (Point α))
    (hf : ∀ acc p, ∀ y ∈ f acc p, y ∈ acc ∨ y = p) :
    ∀ (l acc : List (Point α)) (x : Point α), x ∈ l.foldl f acc → x ∈ acc ∨ x ∈ l := by
  intro l
  induction l with
  | nil => exact fun acc x h => Or.inl h
  | cons p l ih =>
    intro acc x h
    rcases ih (f acc p) x h with h2 | h2
    · rcases hf acc p x h2 with h3 | h3
      · exact Or.inl h3
      · exact Or.inr (by simp [h3])
    · exact Or.inr (List.mem_cons_of_mem _ h2)

theorem mem_of_mem_dedupPoints {pts : List (Point α)} {x : Point α}
    (hx : x ∈ dedupPoints pts) : x ∈ pts := by
  unfold dedupPoints at hx
  have h := foldl_mem_of_step _ ?_ pts [] x hx
  · simpa using h
  · intro acc p y hy
    change y ∈ (if (acc.any fun e =>
        decide (|e.x - p.x| < dedupEps) && decide (|e.y - p.y| < dedupEps)) = true
      then acc else acc ++ [p]) at hy
    split at hy
    · exact Or.inl hy
    · rcases List.mem_append.1 hy with h | h
      · exact Or.inl h
      · exact Or.inr (by simpa using h)

theorem mem_clip_structure {t : Tri α} {q : Quad α} {p : Point α}
    (hp : p ∈ clipTriangleByRectangle t q) :
    (p ∈ [t.a, t.b, t.c] ∧ pointInRectangle p q = true) ∨
    (∃ te ∈ triEdges t, ∃ re ∈ rectEdges q,
      lineSegmentIntersection te.1 te.2 re.1 re.2 = some p) := by
  simp only [clipTriangleByRectangle] at hp
  split at hp
  · simp at hp
  · have hmem : p ∈ dedupPoints (clipCandidates t q) :=
      ((List.perm_insertionSort _ _).mem_iff).1 hp
    have hcand : p ∈ clipCandidates t q := mem_of_mem_dedupPoints hmem
    unfold clipCandidates at hcand
    rcases List.mem_append.1 hcand with h | h
    · left
      have := List.mem_filter.1 h
      exact ⟨this.1, this.2⟩
    · right
      rcases List.mem_flatMap.1 h with ⟨te, hte, hmem2⟩
      rcases List.mem_filterMap.1 hmem2 with ⟨re, hre, hsome⟩
      exact ⟨te, hte, re, hre, hsome⟩

theorem lineSegmentIntersection_eq_some_iff {p1 p2 p3 p4 p : Point α}
    (h : lineSegmentIntersection p1 p2 p3 p4 = some p) :
    interDenom p1 p2 p3 p4 ≠ 0 ∧
    0 ≤ interUA p1 p2 p3 p4 ∧ interUA p1 p2 p3 p4 ≤ 1 ∧
    0 ≤ interUB p1 p2 p3 p4 ∧ interUB p1 p2 p3 p4 ≤ 1 ∧
    p = ⟨p1.x + interUA p1 p2 p3 p4 * (p2.x - p1.x),
         p1.y + interUA p1 p2 p3 p4 * (p2.y - p1.y)⟩ := by
  simp only [lineSegmentIntersection] at h
  split_ifs at h with h1 h2
  · push_neg at h2
    have hd : interDenom p1 p2 p3 p4 ≠ 0 := by
      intro h0
      rw [h0, abs_zero] at h1
      have : (0 : α) < denomEps := by
        unfold denomEps
        positivity
      exact h1 this
    exact ⟨hd, h2.1, h2.2.1, h2.2.2.1, h2.2.2.2, (Option.some.inj h).symm⟩

theorem inter_point_on_second_segment {p1 p2 p3 p4 : Point α}
    (hd : interDenom p1 p2 p3 p4 ≠ 0) :
    p1.x + interUA p1 p2 p3 p4 * (p2.x - p1.x)
      = p3.x + interUB p1 p2 p3 p4 * (p4.x - p3.x) ∧
    p1.y + interUA p1 p2 p3 p4 * (p2.y - p1.y)
      = p3.y + interUB p1 p2 p3 p4 * (p4.y - p3.y) := by
  unfold interUA interUB at *
  constructor <;> (field_simp; unfold interDenom; ring)

theorem convex_combo_between (a b : α) {u : α} (h0 : 0 ≤ u) (h1 : u ≤ 1) :
    min a b ≤ a + u * (b - a) ∧ a + u * (b - a) ≤ max a b := by
  rcases le_total a b with hab | hab
  · rw [min_eq_left hab, max_eq_right hab]
    constructor <;> nlinarith
  · rw [min_eq_right hab, max_eq_left hab]
    constructor <;> nlinarith

theorem crossZ_self (v : Point α) : crossZ v v = 0 := by
  unfold crossZ
  ring

theorem crossZ_anticomm (v w : Point α) : crossZ v w = -crossZ w v := by
  unfold crossZ
  ring

theorem crossZ_linear_comb (u v w : Point α) :
    crossZ u w * v.y = crossZ u v * w.y + crossZ v w * u.y := by
  unfold crossZ
  ring

theorem crossZ_combo_left {x y v : Point α} {a b : α}
    (hvx : v.x = a * x.x + b * y.x) (hvy : v.y = a * x.y + b * y.y) :
    crossZ x v = b * crossZ x y := by
  unfold crossZ
  rw [hvx, hvy]
  ring

theorem crossZ_combo_right {x y v : Point α} {a b : α}
    (hvx : v.x = a * x.x + b * y.x) (hvy : v.y = a * x.y + b * y.y) :
    crossZ v y = a * crossZ x y := by
  unfold crossZ
  rw [hvx, hvy]
  ring

theorem angClass_lt_four (v : Point α) : angClass v < 4 := by
  unfold angClass
  split_ifs <;> omega

theorem angClass_eq_zero_iff {v : Point α} : angClass v = 0 ↔ v.y < 0 := by
  unfold angClass
  split_ifs with h1 h2 h3
  · exact iff_of_true rfl h1
  · exact iff_of_false (by decide) h1
  · exact iff_of_false (by decide) h1
  · exact iff_of_false (by decide) h1

theorem angClass_eq_one_iff {v : Point α} : angClass v = 1 ↔ v.y = 0 ∧ 0 ≤ v.x := by
  unfold angClass
  split_ifs with h1 h2 h3
  · exact iff_of_false (by decide) (fun h => by rw [h.1] at h1; exact lt_irrefl 0 h1)
  · exact iff_of_true rfl h2
  · exact iff_of_false (by decide) (fun h => by rw [h.1] at h3; exact lt_irrefl 0 h3)
  · exact iff_of_false (by decide) h2

theorem angClass_eq_two_iff {v : Point α} : angClass v = 2 ↔ 0 < v.y := by
  unfold angClass
  split_ifs with h1 h2 h3
  · exact iff_of_false (by decide) (fun h => absurd h (lt_asymm h1))
  · exact iff_of_false (by decide) (fun h => by rw [h2.1] at h; exact lt_irrefl 0 h)
  · exact iff_of_true rfl h3
  · exact iff_of_false (by decide) h3

theorem angClass_eq_three_iff {v : Point α} : angClass v = 3 ↔ v.y = 0 ∧ v.x < 0 := by
  unfold angClass
  split_ifs with h1 h2 h3
  · exact iff_of_false (by decide) (fun h => by rw [h.1] at h1; exact lt_irrefl 0 h1)
  · exact iff_of_false (by decide) (fun h => absurd h2.2 (not_le.2 h.2))
  · exact iff_of_false (by decide) (fun h => by rw [h.1] at h3; exact lt_irrefl 0 h3)
  · have hy : v.y = 0 := le_antisymm (not_lt.1 h3) (not_lt.1 h1)
    have hx : v.x < 0 := by
      by_contra hx
      push_neg at hx
      exact h2 ⟨hy, hx⟩
    exact iff_of_true rfl ⟨hy, hx⟩

theorem crossZ_nonneg_of_cls_eq {v w : Point α} (h : angLEp v w)
    (he : angClass v = angClass w) : 0 ≤ crossZ v w := by
  unfold angLEp at h
  rcases h with h | h
  · omega
  · rw [crossZ_anticomm]
    simpa using h.2

theorem angLTp_iff_not_angLEp {v w : Point α} : angLTp v w ↔ ¬angLEp w v := by
  unfold angLTp angLEp
  constructor
  · rintro (h | ⟨he, hc⟩) <;> push_neg
    · exact ⟨by omega, fun hew => by omega⟩
    · exact ⟨by omega, fun _ => hc⟩
  · intro h
    push_neg at h
    obtain ⟨h1, h2⟩ := h
    rcases Nat.lt_or_ge (angClass v) (angClass w) with hlt | hge
    · exact Or.inl hlt
    · have he : angClass w = angClass v := by omega
      exact Or.inr ⟨he.symm, h2 he⟩

theorem angLEp_total (v w : Point α) : angLEp v w ∨ angLEp w v := by
  unfold angLEp
  rcases Nat.lt_trichotomy (angClass v) (angClass w) with h | h | h
  · exact Or.inl (Or.inl h)
  · rcases le_or_lt (crossZ w v) 0 with hc | hc
    · exact Or.inl (Or.inr ⟨h, by simpa using hc⟩)
    · refine Or.inr (Or.inr ⟨h.symm, ?_⟩)
      rw [crossZ_anticomm]
      simp only [not_lt, Left.neg_nonpos_iff]
      exact le_of_lt hc
  · exact Or.inr (Or.inl h)

theorem angLEp_trans {u v w : Point α} (h1 : angLEp u v) (h2 : angLEp v w) :
    angLEp u w := by
  have hc1 := h1
  have hc2 := h2
  unfold angLEp at hc1 hc2 ⊢
  rcases Nat.lt_or_ge (angClass u) (angClass w) with h | h
  · exact Or.inl h
  · have huv : angClass u ≤ angClass v := by
      rcases hc1 with h' | h' <;> omega
    have hvw : angClass v ≤ angClass w := by
      rcases hc2 with h' | h' <;> omega
    have heu : angClass u = angClass v := by omega
    have hev : angClass v = angClass w := by omega
    have k1 : 0 ≤ crossZ u v := crossZ_nonneg_of_cls_eq h1 heu
    have k2 : 0 ≤ crossZ v w := crossZ_nonneg_of_cls_eq h2 hev
    refine Or.inr ⟨by omega, ?_⟩
    rw [crossZ_anticomm]
    simp only [not_lt, Left.neg_nonpos_iff]
    have hid := crossZ_linear_comb u v w
    have hb := angClass_lt_four v
    have hcase : angClass v = 0 ∨ angClass v = 1 ∨ angClass v = 2 ∨ angClass v = 3 := by
      omega
    rcases hcase with hk | hk | hk | hk
    · have hyv : v.y < 0 := angClass_eq_zero_iff.1 hk
      have hyu : u.y < 0 := angClass_eq_zero_iff.1 (by omega)
      have hyw : w.y < 0 := angClass_eq_zero_iff.1 (by omega)
      nlinarith
    · have hu1 := angClass_eq_one_iff.1 (show angClass u = 1 by omega)
      have hw1 := angClass_eq_one_iff.1 (show angClass w = 1 by omega)
      unfold crossZ
      rw [hu1.1, hw1.1]
      ring_nf
      exact le_refl 0
    · have hyv : 0 < v.y := angClass_eq_two_iff.1 hk
      have hyu : 0 < u.y := angClass_eq_two_iff.1 (by omega)
      have hyw : 0 < w.y := angClass_eq_two_iff.1 (by omega)
      nlinarith
    · have hu3 := angClass_eq_three_iff.1 (show angClass u = 3 by omega)
      have hw3 := angClass_eq_three_iff.1 (show angClass w = 3 by omega)
      unfold crossZ
      rw [hu3.1, hw3.1]
      ring_nf
      exact le_refl 0

theorem angLEp_refl (v : Point α) : angLEp v v :=
  Or.inr ⟨rfl, by rw [crossZ_self]; exact lt_irrefl 0⟩

theorem angLEp_cls_le {v w : Point α} (h : angLEp v w) :
    angClass v ≤ angClass w := by
  rcases h with h | h
  · omega
  · omega

theorem angLTp_of_angLTp_of_angLEp {u v w : Point α}
    (h1 : angLTp u v) (h2 : angLEp v w) : angLTp u w := by
  rw [angLTp_iff_not_angLEp] at h1 ⊢
  intro hwu
  exact h1 (angLEp_trans h2 hwu)

theorem angLTp_of_angLEp_of_angLTp {u v w : Point α}
    (h1 : angLEp u v) (h2 : angLTp v w) : angLTp u w := by
  rw [angLTp_iff_not_angLEp] at h2 ⊢
  intro hwu
  exact h2 (angLEp_trans hwu h1)

theorem angLTp_irrefl (v : Point α) : ¬angLTp v v := by
  rw [angLTp_iff_not_angLEp]
  intro h
  exact h (angLEp_refl v)

theorem strict_in_sector {x y v : Point α}
    (hle : angLEp x y) (hpos : 0 < crossZ x y) {a b : α} (ha : 0 < a) (hb : 0 < b)
    (hvx : v.x = a * x.x + b * y.x) (hvy : v.y = a * x.y + b * y.y) :
    angLTp x v ∧ angLTp v y := by
  have hxv : crossZ x v = b * crossZ x y := crossZ_combo_left hvx hvy
  have hvyc : crossZ v y = a * crossZ x y := crossZ_combo_right hvx hvy
  have hxvpos : 0 < crossZ x v := by
    rw [hxv]
    exact mul_pos hb hpos
  have hvypos : 0 < crossZ v y := by
    rw [hvyc]
    exact mul_pos ha hpos
  have hclsle : angClass x ≤ angClass y := angLEp_cls_le hle
  have hx4 := angClass_lt_four x
  have hy4 := angClass_lt_four y
  have hcx : angClass x = 0 ∨ angClass x = 1 ∨ angClass x = 2 ∨ angClass x = 3 := by
    omega
  have hcy : angClass y = 0 ∨ angClass y = 1 ∨ angClass y = 2 ∨ angClass y = 3 := by
    omega
  rcases hcx with hcx | hcx | hcx | hcx <;> rcases hcy with hcy | hcy | hcy | hcy <;>
      try omega
  · -- classes (0, 0)
    have hx0 := angClass_eq_zero_iff.1 hcx
    have hy0 := angClass_eq_zero_iff.1 hcy
    have hv0 : v.y < 0 := by
      rw [hvy]
      exact add_neg (mul_neg_of_pos_of_neg ha hx0) (mul_neg_of_pos_of_neg hb hy0)
    have hcv := angClass_eq_zero_iff.2 hv0
    exact ⟨Or.inr ⟨by omega, hxvpos⟩, Or.inr ⟨by omega, hvypos⟩⟩
  · -- classes (0, 1)
    have hx0 := angClass_eq_zero_iff.1 hcx
    have hy1 := angClass_eq_one_iff.1 hcy
    have hv0 : v.y < 0 := by
      rw [hvy, hy1.1, mul_zero, add_zero]
      exact mul_neg_of_pos_of_neg ha hx0
    have hcv := angClass_eq_zero_iff.2 hv0
    exact ⟨Or.inr ⟨by omega, hxvpos⟩, Or.inl (by omega)⟩
  · -- classes (0, 2)
    have hx0 := angClass_eq_zero_iff.1 hcx
    have hy2 := angClass_eq_two_iff.1 hcy
    rcases lt_trichotomy v.y 0 with hv0 | hv0 | hv0
    · have hcv := angClass_eq_zero_iff.2 hv0
      exact ⟨Or.inr ⟨by omega, hxvpos⟩, Or.inl (by omega)⟩
    · have h0 : a * x.y + b * y.y = 0 := by
        rw [← hvy]
        exact hv0
      have hkey : v.x * y.y = a * crossZ x y := by
        unfold crossZ
        rw [hvx]
        linear_combination y.x * h0
      have hvxpos : 0 < v.x := by
        have h2 : 0 < v.x * y.y := by
          rw [hkey]
          exact mul_pos ha hpos
        rcases mul_pos_iff.1 h2 with h3 | h3
        · exact h3.1
        · exact absurd hy2 (not_lt.2 (le_of_lt h3.2))
      have hcv := angClass_eq_one_iff.2 ⟨hv0, le_of_lt hvxpos⟩
      exact ⟨Or.inl (by omega), Or.inl (by omega)⟩
    · have hcv := angClass_eq_two_iff.2 hv0
      exact ⟨Or.inl (by omega), Or.inr ⟨by omega, hvypos⟩⟩
  · -- classes (0, 3): the cross product cannot be positive
    exfalso
    have hx0 := angClass_eq_zero_iff.1 hcx
    have hy3 := angClass_eq_three_iff.1 hcy
    unfold crossZ at hpos
    rw [hy3.1, mul_zero, zero_sub, lt_neg, neg_zero] at hpos
    exact absurd (mul_pos_of_neg_of_neg hx0 hy3.2) (not_lt.2 (le_of_lt hpos))
  · -- classes (1, 1): the cross product vanishes
    exfalso
    have hx1 := angClass_eq_one_iff.1 hcx
    have hy1 := angClass_eq_one_iff.1 hcy
    unfold crossZ at hpos
    rw [hx1.1, hy1.1, mul_zero, zero_mul, sub_zero] at hpos
    exact lt_irrefl 0 hpos
  · -- classes (1, 2)
    have hx1 := angClass_eq_one_iff.1 hcx
    have hy2 := angClass_eq_two_iff.1 hcy
    have hv2 : 0 < v.y := by
      rw [hvy, hx1.1, mul_zero, zero_add]
      exact mul_pos hb hy2
    have hcv := angClass_eq_two_iff.2 hv2
    exact ⟨Or.inl (by omega), Or.inr ⟨by omega, hvypos⟩⟩
  · -- classes (1, 3): the cross product vanishes
    exfalso
    have hx1 := angClass_eq_one_iff.1 hcx
    have hy3 := angClass_eq_three_iff.1 hcy
    unfold crossZ at hpos
    rw [hx1.1, hy3.1, mul_zero, zero_mul, sub_zero] at hpos
    exact lt_irrefl 0 hpos
  · -- classes (2, 2)
    have hx2 := angClass_eq_two_iff.1 hcx
    have hy2 := angClass_eq_two_iff.1 hcy
    have hv2 : 0 < v.y := by
      rw [hvy]
      exact add_pos (mul_pos ha hx2) (mul_pos hb hy2)
    have hcv := angClass_eq_two_iff.2 hv2
    exact ⟨Or.inr ⟨by omega, hxvpos⟩, Or.inr ⟨by omega, hvypos⟩⟩
  · -- classes (2, 3)
    have hx2 := angClass_eq_two_iff.1 hcx
    have hy3 := angClass_eq_three_iff.1 hcy
    have hv2 : 0 < v.y := by
      rw [hvy, hy3.1, mul_zero, add_zero]
      exact mul_pos ha hx2
    have hcv := angClass_eq_two_iff.2 hv2
    exact ⟨Or.inr ⟨by omega, hxvpos⟩, Or.inl (by omega)⟩
  · -- classes (3, 3): the cross product vanishes
    exfalso
    have hx3 := angClass_eq_three_iff.1 hcx
    have hy3 := angClass_eq_three_iff.1 hcy
    unfold crossZ at hpos
    rw [hx3.1, hy3.1, mul_zero, zero_mul, sub_zero] at hpos
    exact lt_irrefl 0 hpos

theorem strict_in_wrap {x y v : Point α}
    (hle : angLEp y x) (hpos : 0 < crossZ x y) {a b : α} (ha : 0 < a) (hb : 0 < b)
    (hvx : v.x = a * x.x + b * y.x) (hvy : v.y = a * x.y + b * y.y) :
    angLTp v y ∨ angLTp x v := by
  have hxv : crossZ x v = b * crossZ x y := crossZ_combo_left hvx hvy
  have hvyc : crossZ v y = a * crossZ x y := crossZ_combo_right hvx hvy
  have hxvpos : 0 < crossZ x v := by
    rw [hxv]
    exact mul_pos hb hpos
  have hvypos : 0 < crossZ v y := by
    rw [hvyc]
    exact mul_pos ha hpos
  have hclsle : angClass y ≤ angClass x := angLEp_cls_le hle
  have hx4 := angClass_lt_four x
  have hy4 := angClass_lt_four y
  have hne : angClass y ≠ angClass x := by
    intro he
    have h2 := crossZ_nonneg_of_cls_eq hle he
    rw [crossZ_anticomm] at h2
    linarith
  have hcx : angClass x = 0 ∨ angClass x = 1 ∨ angClass x = 2 ∨ angClass x = 3 := by
    omega
  have hcy : angClass y = 0 ∨ angClass y = 1 ∨ angClass y = 2 ∨ angClass y = 3 := by
    omega
  rcases hcy with hcy | hcy | hcy | hcy <;> rcases hcx with hcx | hcx | hcx | hcx <;>
      try omega
  · -- classes (y, x) = (0, 1): impossible
    exfalso
    have hy0 := angClass_eq_zero_iff.1 hcy
    have hx1 := angClass_eq_one_iff.1 hcx
    unfold crossZ at hpos
    rw [hx1.1, zero_mul, sub_zero] at hpos
    rcases mul_pos_iff.1 hpos with h3 | h3
    · exact absurd hy0 (not_lt.2 (le_of_lt h3.2))
    · exact absurd hx1.2 (not_le.2 h3.1)
  · -- classes (y, x) = (0, 2): the straddling sector
    have hy0 := angClass_eq_zero_iff.1 hcy
    have hx2 := angClass_eq_two_iff.1 hcx
    rcases lt_trichotomy v.y 0 with hv0 | hv0 | hv0
    · have hcv := angClass_eq_zero_iff.2 hv0
      exact Or.inl (Or.inr ⟨by omega, hvypos⟩)
    · have h0 : a * x.y + b * y.y = 0 := by
        rw [← hvy]
        exact hv0
      have hkey : v.x * y.y = a * crossZ x y := by
        unfold crossZ
        rw [hvx]
        linear_combination y.x * h0
      have hvxneg : v.x < 0 := by
        have h2 : 0 < v.x * y.y := by
          rw [hkey]
          exact mul_pos ha hpos
        rcases mul_pos_iff.1 h2 with h3 | h3
        · exact absurd hy0 (not_lt.2 (le_of_lt h3.2))
        · exact h3.1
      have hcv := angClass_eq_three_iff.2 ⟨hv0, hvxneg⟩
      exact Or.inr (Or.inl (by omega))
    · have hcv := angClass_eq_two_iff.2 hv0
      exact Or.inr (Or.inr ⟨by omega, hxvpos⟩)
  · -- classes (y, x) = (0, 3)
    have hy0 := angClass_eq_zero_iff.1 hcy
    have hx3 := angClass_eq_three_iff.1 hcx
    have hv0 : v.y < 0 := by
      rw [hvy, hx3.1, mul_zero, zero_add]
      exact mul_neg_of_pos_of_neg hb hy0
    have hcv := angClass_eq_zero_iff.2 hv0
    exact Or.inl (Or.inr ⟨by omega, hvypos⟩)
  · -- classes (y, x) = (1, 2): impossible
    exfalso
    have hy1 := angClass_eq_one_iff.1 hcy
    have hx2 := angClass_eq_two_iff.1 hcx
    unfold crossZ at hpos
    rw [hy1.1, mul_zero, zero_sub, lt_neg, neg_zero] at hpos
    exact absurd (mul_nonneg (le_of_lt hx2) hy1.2) (not_le.2 hpos)
  · -- classes (y, x) = (1, 3): impossible
    exfalso
    have hy1 := angClass_eq_one_iff.1 hcy
    have hx3 := angClass_eq_three_iff.1 hcx
    unfold crossZ at hpos
    rw [hy1.1, hx3.1, mul_zero, zero_mul, sub_zero] at hpos
    exact lt_irrefl 0 hpos
  · -- classes (y, x) = (2, 3): impossible
    exfalso
    have hy2 := angClass_eq_two_iff.1 hcy
    have hx3 := angClass_eq_three_iff.1 hcx
    unfold crossZ at hpos
    rw [hx3.1, zero_mul, sub_zero] at hpos
    rcases mul_pos_iff.1 hpos with h3 | h3
    · exact absurd hx3.2 (not_lt.2 (le_of_lt h3.1))
    · exact absurd hy2 (not_lt.2 (le_of_lt h3.2))

theorem internal_neg_classes {x y : Point α} (hle : angLEp x y)
    (hneg : crossZ x y < 0) :
    angClass x = 0 ∧ (angClass y = 2 ∨ angClass y = 3) := by
  have hclsle : angClass x ≤ angClass y := angLEp_cls_le hle
  have hx4 := angClass_lt_four x
  have hy4 := angClass_lt_four y
  have hne : angClass x ≠ angClass y := by
    intro he
    have h2 := crossZ_nonneg_of_cls_eq hle he
    linarith
  have hcx : angClass x = 0 ∨ angClass x = 1 ∨ angClass x = 2 ∨ angClass x = 3 := by
    omega
  have hcy : angClass y = 0 ∨ angClass y = 1 ∨ angClass y = 2 ∨ angClass y = 3 := by
    omega
  rcases hcx with hcx | hcx | hcx | hcx <;> rcases hcy with hcy | hcy | hcy | hcy <;>
      try omega
  · -- (0, 1): cross is nonnegative
    exfalso
    have hx0 := angClass_eq_zero_iff.1 hcx
    have hy1 := angClass_eq_one_iff.1 hcy
    unfold crossZ at hneg
    rw [hy1.1, mul_zero, zero_sub, neg_lt, neg_zero] at hneg
    rcases mul_pos_iff.1 hneg with h3 | h3
    · exact absurd hx0 (not_lt.2 (le_of_lt h3.1))
    · exact absurd hy1.2 (not_le.2 h3.2)
  · -- (1, 2): cross is nonnegative
    exfalso
    have hx1 := angClass_eq_one_iff.1 hcx
    have hy2 := angClass_eq_two_iff.1 hcy
    unfold crossZ at hneg
    rw [hx1.1, zero_mul, sub_zero] at hneg
    exact absurd (mul_nonneg hx1.2 (le_of_lt hy2)) (not_le.2 hneg)
  · -- (1, 3): cross vanishes
    exfalso
    have hx1 := angClass_eq_one_iff.1 hcx
    have hy3 := angClass_eq_three_iff.1 hcy
    unfold crossZ at hneg
    rw [hx1.1, hy3.1, mul_zero, zero_mul, sub_zero] at hneg
    exact lt_irrefl 0 hneg
  · -- (2, 3): cross is positive
    exfalso
    have hx2 := angClass_eq_two_iff.1 hcx
    have hy3 := angClass_eq_three_iff.1 hcy
    unfold crossZ at hneg
    rw [hy3.1, mul_zero, zero_sub, neg_lt, neg_zero] at hneg
    exact absurd (mul_pos_of_neg_of_neg (by linarith [hx2] : -x.y < 0) hy3.2)
      (by rw [neg_mul]; simpa using not_lt.2 (le_of_lt hneg))
  
theorem cls3_cls0_cross_pos {x y : Point α}
    (hx3 : angClass x = 3) (hy0 : angClass y = 0) : 0 < crossZ x y := by
  have h3 := angClass_eq_three_iff.1 hx3
  have h0 := angClass_eq_zero_iff.1 hy0
  unfold crossZ
  rw [h3.1, zero_mul, sub_zero]
  exact mul_pos_of_neg_of_neg h3.2 h0

theorem four_point_wrap {a b c d : Point α}
    (hya : a.y < 0) (hyb : b.y < 0) (hyc : 0 < c.y) (hyd : 0 < d.y)
    (hab : 0 ≤ crossZ a b) (hbc : crossZ b c < 0) (hcd : 0 ≤ crossZ c d) :
    0 < crossZ d a := by
  have h1 := crossZ_linear_comb b c d
  have hrhs1 : crossZ b c * d.y + crossZ c d * b.y < 0 := by
    have t1 : crossZ b c * d.y < 0 := mul_neg_of_neg_of_pos hbc hyd
    have t2 : crossZ c d * b.y ≤ 0 :=
      mul_nonpos_iff.2 (Or.inl ⟨hcd, le_of_lt hyb⟩)
    linarith
  have hbd : crossZ b d < 0 := by
    by_contra hge
    push_neg at hge
    have h3 : 0 ≤ crossZ b d * c.y := mul_nonneg hge (le_of_lt hyc)
    rw [h1] at h3
    linarith
  have h2 := crossZ_linear_comb a b d
  have hrhs2 : 0 < crossZ a b * d.y + crossZ b d * a.y := by
    have t1 : 0 ≤ crossZ a b * d.y := mul_nonneg hab (le_of_lt hyd)
    have t2 : 0 < crossZ b d * a.y := mul_pos_of_neg_of_neg hbd hya
    linarith
  have had : crossZ a d < 0 := by
    by_contra hge
    push_neg at hge
    have h3 : crossZ a d * b.y ≤ 0 :=
      mul_nonpos_iff.2 (Or.inl ⟨hge, le_of_lt hyb⟩)
    rw [h2] at h3
    linarith
  rw [crossZ_anticomm]
  linarith

section MeasureLemmas

open MeasureTheory Pointwise

theorem stdTriSet_convex : Convex ℝ stdTriSet := by
  intro x hx y hy a b ha hb hab
  obtain ⟨hx1, hx2, hx3⟩ := hx
  obtain ⟨hy1, hy2, hy3⟩ := hy
  refine ⟨?_, ?_, ?_⟩
  · have : (a • x + b • y).1 = a * x.1 + b * y.1 := rfl
    rw [this]
    have t1 : 0 ≤ a * x.1 := mul_nonneg ha hx1
    have t2 : 0 ≤ b * y.1 := mul_nonneg hb hy1
    linarith
  · have : (a • x + b • y).2 = a * x.2 + b * y.2 := rfl
    rw [this]
    have t1 : 0 ≤ a * x.2 := mul_nonneg ha hx2
    have t2 : 0 ≤ b * y.2 := mul_nonneg hb hy2
    linarith
  · have h1 : (a • x + b • y).1 = a * x.1 + b * y.1 := rfl
    have h2 : (a • x + b • y).2 = a * x.2 + b * y.2 := rfl
    rw [h1, h2]
    have t1 : a * (x.1 + x.2) ≤ a * 1 := by
      apply mul_le_mul_of_nonneg_left _ ha
      linarith
    have t2 : b * (y.1 + y.2) ≤ b * 1 := by
      apply mul_le_mul_of_nonneg_left _ hb
      linarith
    nlinarith

theorem stdTriSet_isClosed : IsClosed stdTriSet := by
  have h1 : stdTriSet = {z : ℝ × ℝ | 0 ≤ z.1} ∩ ({z | 0 ≤ z.2} ∩ {z | z.1 + z.2 ≤ 1}) := by
    ext z
    simp [stdTriSet, and_assoc]
  rw [h1]
  exact (isClosed_le continuous_const continuous_fst).inter
    ((isClosed_le continuous_const continuous_snd).inter
      (isClosed_le (continuous_fst.add continuous_snd) continuous_const))

theorem stdTriSet_isCompact : IsCompact stdTriSet := by
  refine IsCompact.of_isClosed_subset
    (isCompact_Icc : IsCompact (Set.Icc ((0, 0) : ℝ × ℝ) (1, 1))) stdTriSet_isClosed ?_
  intro z hz
  obtain ⟨h1, h2, h3⟩ := hz
  simp only [Set.mem_Icc, Prod.le_def]
  exact ⟨⟨h1, h2⟩, by linarith, by linarith⟩

theorem lineThrough_null (p v : ℝ × ℝ) (hv : v ≠ 0) :
    volume (lineThrough p v) = 0 := by
  have hker : {w : ℝ × ℝ | vcross v w = 0}
      = ((Submodule.span ℝ {v} : Submodule ℝ (ℝ × ℝ)) : Set (ℝ × ℝ)) := by
    ext w
    simp only [Set.mem_setOf_eq, SetLike.mem_coe, Submodule.mem_span_singleton]
    constructor
    · intro hw
      rcases ne_or_eq v.1 0 with h1 | h1
      · refine ⟨w.1 / v.1, ?_⟩
        have hw2 : w.2 = w.1 * v.2 / v.1 := by
          field_simp
          unfold vcross at hw
          linarith [hw]
        ext
        · simp [h1]
        · simp only [Prod.smul_snd, smul_eq_mul]
          rw [hw2]
          ring
      · have h2 : v.2 ≠ 0 := by
          intro h2
          exact hv (Prod.ext h1 h2)
        have hw1 : w.1 = 0 := by
          unfold vcross at hw
          rw [h1] at hw
          simp only [zero_mul, zero_sub, neg_eq_zero] at hw
          rcases mul_eq_zero.1 hw with h | h
          · exact absurd h h2
          · exact h
        refine ⟨w.2 / v.2, ?_⟩
        ext
        · simp [h1, hw1]
        · simp [h2]
    · rintro ⟨a, rfl⟩
      unfold vcross
      simp only [Prod.smul_fst, Prod.smul_snd, smul_eq_mul]
      ring
  have hne : (Submodule.span ℝ {v} : Submodule ℝ (ℝ × ℝ)) ≠ ⊤ := by
    intro htop
    have hmem : (-v.2, v.1) ∈ (Submodule.span ℝ {v} : Submodule ℝ (ℝ × ℝ)) := by
      rw [htop]
      trivial
    have hzero : vcross v (-v.2, v.1) = 0 := by
      have : ((-v.2, v.1) : ℝ × ℝ) ∈ {w : ℝ × ℝ | vcross v w = 0} := by
        rw [hker]
        exact hmem
      exact this
    unfold vcross at hzero
    simp only at hzero
    have hvsq : v.1 * v.1 + v.2 * v.2 = 0 := by linarith
    have h1 : v.1 = 0 := by nlinarith [sq_nonneg v.1, sq_nonneg v.2]
    have h2 : v.2 = 0 := by nlinarith [sq_nonneg v.1, sq_nonneg v.2]
    exact hv (Prod.ext h1 h2)
  have htrans : lineThrough p v = p +ᵥ {w : ℝ × ℝ | vcross v w = 0} := by
    ext z
    rw [Set.mem_vadd_set_iff_neg_vadd_mem]
    simp only [lineThrough, Set.mem_setOf_eq, vadd_eq_add, neg_add_eq_sub]
  rw [htrans, measure_vadd, hker]
  exact Measure.addHaar_submodule volume _ hne

theorem volume_stdTriSet : volume stdTriSet = ENNReal.ofReal (1 / 2) := by
  have hT1closed : IsClosed {z : ℝ × ℝ | z.1 ≤ 1 ∧ z.2 ≤ 1 ∧ 1 ≤ z.1 + z.2} := by
    have h1 : {z : ℝ × ℝ | z.1 ≤ 1 ∧ z.2 ≤ 1 ∧ 1 ≤ z.1 + z.2}
        = {z : ℝ × ℝ | z.1 ≤ 1} ∩ ({z | z.2 ≤ 1} ∩ {z | 1 ≤ z.1 + z.2}) := by
      ext z
      simp [and_assoc]
    rw [h1]
    exact (isClosed_le continuous_fst continuous_const).inter
      ((isClosed_le continuous_snd continuous_const).inter
        (isClosed_le continuous_const (continuous_fst.add continuous_snd)))
  have hunion : Set.Icc ((0, 0) : ℝ × ℝ) (1, 1)
      = stdTriSet ∪ {z : ℝ × ℝ | z.1 ≤ 1 ∧ z.2 ≤ 1 ∧ 1 ≤ z.1 + z.2} := by
    ext z
    simp only [Set.mem_Icc, Prod.le_def, Set.mem_union, stdTriSet, Set.mem_setOf_eq]
    constructor
    · rintro ⟨⟨h1, h2⟩, h3, h4⟩
      rcases le_total (z.1 + z.2) 1 with h | h
      · exact Or.inl ⟨h1, h2, h⟩
      · exact Or.inr ⟨h3, h4, h⟩
    · rintro (⟨h1, h2, h3⟩ | ⟨h1, h2, h3⟩)
      · exact ⟨⟨h1, h2⟩, by linarith, by linarith⟩
      · exact ⟨⟨by linarith, by linarith⟩, h1, h2⟩
  have hinter : stdTriSet ∩ {z : ℝ × ℝ | z.1 ≤ 1 ∧ z.2 ≤ 1 ∧ 1 ≤ z.1 + z.2}
      ⊆ lineThrough ((1, 0) : ℝ × ℝ) ((-1, 1) : ℝ × ℝ) := by
    rintro z ⟨⟨_, _, h3⟩, _, _, h6⟩
    have heq : z.1 + z.2 = 1 := le_antisymm h3 h6
    simp only [lineThrough, vcross, Set.mem_setOf_eq, Prod.fst_sub, Prod.snd_sub]
    linarith
  have hrefl : {z : ℝ × ℝ | z.1 ≤ 1 ∧ z.2 ≤ 1 ∧ 1 ≤ z.1 + z.2}
      = ((1, 1) : ℝ × ℝ) +ᵥ ((-1 : ℝ) • stdTriSet) := by
    ext z
    rw [Set.mem_vadd_set_iff_neg_vadd_mem,
      Set.mem_smul_set_iff_inv_smul_mem₀ (by norm_num : (-1 : ℝ) ≠ 0)]
    have key : (-1 : ℝ)⁻¹ • (-((1, 1) : ℝ × ℝ) +ᵥ z) = ((1 - z.1, 1 - z.2) : ℝ × ℝ) := by
      ext <;> simp <;> ring
    rw [key]
    simp only [stdTriSet, Set.mem_setOf_eq]
    constructor
    · rintro ⟨h1, h2, h3⟩
      exact ⟨by linarith, by linarith, by linarith⟩
    · rintro ⟨h1, h2, h3⟩
      exact ⟨by linarith, by linarith, by linarith⟩
  have hvolT1 : volume {z : ℝ × ℝ | z.1 ≤ 1 ∧ z.2 ≤ 1 ∧ 1 ≤ z.1 + z.2}
      = volume stdTriSet := by
    rw [hrefl, measure_vadd, Measure.addHaar_smul]
    norm_num
  have hsq : volume (Set.Icc ((0, 0) : ℝ × ℝ) (1, 1)) = 1 := by
    rw [Set.Icc_prod_eq, Measure.volume_eq_prod, Measure.prod_prod]
    simp [Real.volume_Icc]
  have hkey : volume (stdTriSet ∪ {z : ℝ × ℝ | z.1 ≤ 1 ∧ z.2 ≤ 1 ∧ 1 ≤ z.1 + z.2}) +
      volume (stdTriSet ∩ {z : ℝ × ℝ | z.1 ≤ 1 ∧ z.2 ≤ 1 ∧ 1 ≤ z.1 + z.2}) =
      volume stdTriSet + volume {z : ℝ × ℝ | z.1 ≤ 1 ∧ z.2 ≤ 1 ∧ 1 ≤ z.1 + z.2} :=
    measure_union_add_inter stdTriSet hT1closed.measurableSet
  rw [← hunion, hsq] at hkey
  have hzero : volume (stdTriSet ∩ {z : ℝ × ℝ | z.1 ≤ 1 ∧ z.2 ≤ 1 ∧ 1 ≤ z.1 + z.2}) = 0 :=
    measure_mono_null hinter
      (lineThrough_null ((1, 0) : ℝ × ℝ) ((-1, 1) : ℝ × ℝ) (by norm_num))
  rw [hzero, add_zero, hvolT1] at hkey
  have h2 : (2 : ENNReal) * volume stdTriSet = 1 := by
    rw [two_mul, hkey]
  rw [ENNReal.ofReal_div_of_pos (by norm_num), ENNReal.ofReal_one, ENNReal.ofReal_ofNat]
  rw [ENNReal.eq_div_iff (by norm_num) (by norm_num)]
  exact h2

theorem det_smulRight_pair (u w : ℝ × ℝ) :
    LinearMap.det ((LinearMap.fst ℝ ℝ ℝ).smulRight u + (LinearMap.snd ℝ ℝ ℝ).smulRight w)
      = u.1 * w.2 - u.2 * w.1 := by
  have h : LinearMap.toMatrix (Basis.finTwoProd ℝ) (Basis.finTwoProd ℝ)
      ((LinearMap.fst ℝ ℝ ℝ).smulRight u + (LinearMap.snd ℝ ℝ ℝ).smulRight w) =
      Matrix.of ![![u.1, w.1], ![u.2, w.2]] := by
    ext i j
    fin_cases i <;> fin_cases j <;>
      simp [LinearMap.toMatrix_apply, Basis.finTwoProd]
  rw [← LinearMap.det_toMatrix (Basis.finTwoProd ℝ), h, Matrix.det_fin_two]
  simp only [Matrix.of_apply, Matrix.cons_val_zero, Matrix.cons_val_one, Matrix.head_cons,
    Matrix.head_fin_const]
  ring

theorem triSet_eq_image (p u w : ℝ × ℝ) :
    triSet p u w = p +ᵥ
      (((LinearMap.fst ℝ ℝ ℝ).smulRight u + (LinearMap.snd ℝ ℝ ℝ).smulRight w) ''
        stdTriSet) := by
  unfold triSet
  rw [← Set.image_vadd, ← Set.image_comp]
  apply Set.image_congr
  intro z _
  simp only [Function.comp_apply, LinearMap.add_apply, LinearMap.smulRight_apply,
    LinearMap.fst_apply, LinearMap.snd_apply, vadd_eq_add]
  abel

theorem volume_triSet (p u w : ℝ × ℝ) :
    volume (triSet p u w) = ENNReal.ofReal (|u.1 * w.2 - u.2 * w.1| / 2) := by
  rw [triSet_eq_image, measure_vadd, Measure.addHaar_image_linearMap,
    det_smulRight_pair, volume_stdTriSet, ← ENNReal.ofReal_mul (abs_nonneg _)]
  ring_nf

theorem triSet_isCompact (p u w : ℝ × ℝ) : IsCompact (triSet p u w) := by
  unfold triSet
  apply IsCompact.image stdTriSet_isCompact
  exact (continuous_const.add (continuous_fst.smul continuous_const)).add
    (continuous_snd.smul continuous_const)

theorem mem_triSet_iff {p u w x : ℝ × ℝ} :
    x ∈ triSet p u w ↔
      ∃ a b : ℝ, 0 ≤ a ∧ 0 ≤ b ∧ a + b ≤ 1 ∧ x = p + a • u + b • w := by
  unfold triSet stdTriSet
  constructor
  · rintro ⟨z, ⟨h1, h2, h3⟩, rfl⟩
    exact ⟨z.1, z.2, h1, h2, h3, rfl⟩
  · rintro ⟨a, b, h1, h2, h3, rfl⟩
    exact ⟨(a, b), ⟨h1, h2, h3⟩, rfl⟩

theorem triSet_subset_convex {p u w : ℝ × ℝ} {T : Set (ℝ × ℝ)} (hT : Convex ℝ T)
    (hp : p ∈ T) (hu : p + u ∈ T) (hw : p + w ∈ T) : triSet p u w ⊆ T := by
  intro x hx
  rcases mem_triSet_iff.1 hx with ⟨a, b, ha, hb, hab, rfl⟩
  have h0 : ∀ i ∈ (Finset.univ : Finset (Fin 3)), 0 ≤ ![1 - a - b, a, b] i := by
    intro i _
    fin_cases i <;> simp <;> linarith
  have h1 : ∑ i ∈ (Finset.univ : Finset (Fin 3)), ![1 - a - b, a, b] i = 1 := by
    rw [Fin.sum_univ_three]
    simp only [Matrix.cons_val_zero, Matrix.cons_val_one, Matrix.head_cons,
      Matrix.cons_val_two, Matrix.tail_cons]
    ring
  have hz : ∀ i ∈ (Finset.univ : Finset (Fin 3)), ![p, p + u, p + w] i ∈ T := by
    intro i _
    fin_cases i <;> simpa using by first | exact hp | exact hu | exact hw
  have hmem := hT.sum_mem h0 h1 hz
  rw [Fin.sum_univ_three] at hmem
  simp only [Matrix.cons_val_zero, Matrix.cons_val_one, Matrix.head_cons,
    Matrix.cons_val_two, Matrix.tail_cons] at hmem
  have heq : (1 - a - b) • p + a • (p + u) + b • (p + w) = p + a • u + b • w := by
    ext
    · simp only [Prod.fst_add, Prod.smul_fst, smul_eq_mul]
      ring
    · simp only [Prod.snd_add, Prod.smul_snd, smul_eq_mul]
      ring
  rwa [heq] at hmem

theorem angLTp_asymm {v w : Point ℝ} (h1 : angLTp v w) (h2 : angLTp w v) : False := by
  rw [angLTp_iff_not_angLEp] at h1 h2
  rcases angLEp_total v w with h | h
  · exact h2 h
  · exact h1 h

theorem toVec_ne_zero_of_crossZ {X Y : Point ℝ} (h : crossZ X Y ≠ 0) :
    toVec X ≠ (0 : ℝ × ℝ) ∧ toVec Y ≠ (0 : ℝ × ℝ) := by
  constructor
  · intro h0
    apply h
    have hx : X.x = 0 := congrArg Prod.fst h0
    have hy : X.y = 0 := congrArg Prod.snd h0
    unfold crossZ
    rw [hx, hy]
    ring
  · intro h0
    apply h
    have hx : Y.x = 0 := congrArg Prod.fst h0
    have hy : Y.y = 0 := congrArg Prod.snd h0
    unfold crossZ
    rw [hx, hy]
    ring

theorem triSet_mem_strict {cpt : ℝ × ℝ} {X Y : Point ℝ} {x : ℝ × ℝ}
    (hx : x ∈ triSet cpt (toVec X) (toVec Y))
    (hl1 : x ∉ lineThrough cpt (toVec X)) (hl2 : x ∉ lineThrough cpt (toVec Y)) :
    ∃ a b : ℝ, 0 < a ∧ 0 < b ∧
      (⟨x.1 - cpt.1, x.2 - cpt.2⟩ : Point ℝ).x = a * X.x + b * Y.x ∧
      (⟨x.1 - cpt.1, x.2 - cpt.2⟩ : Point ℝ).y = a * X.y + b * Y.y := by
  rcases mem_triSet_iff.1 hx with ⟨a, b, ha, hb, _, rfl⟩
  have hfst : (cpt + a • toVec X + b • toVec Y).1 = cpt.1 + a * X.x + b * Y.x := rfl
  have hsnd : (cpt + a • toVec X + b • toVec Y).2 = cpt.2 + a * X.y + b * Y.y := rfl
  have hpx : ((⟨(cpt + a • toVec X + b • toVec Y).1 - cpt.1,
      (cpt + a • toVec X + b • toVec Y).2 - cpt.2⟩ : Point ℝ)).x = a * X.x + b * Y.x := by
    show (cpt + a • toVec X + b • toVec Y).1 - cpt.1 = a * X.x + b * Y.x
    rw [hfst]
    ring
  have hpy : ((⟨(cpt + a • toVec X + b • toVec Y).1 - cpt.1,
      (cpt + a • toVec X + b • toVec Y).2 - cpt.2⟩ : Point ℝ)).y = a * X.y + b * Y.y := by
    show (cpt + a • toVec X + b • toVec Y).2 - cpt.2 = a * X.y + b * Y.y
    rw [hsnd]
    ring
  have hlmem1 : crossZ X ⟨(cpt + a • toVec X + b • toVec Y).1 - cpt.1,
      (cpt + a • toVec X + b • toVec Y).2 - cpt.2⟩ ≠ 0 := by
    intro h0
    apply hl1
    show vcross (toVec X) ((cpt + a • toVec X + b • toVec Y) - cpt) = 0
    exact h0
  have hlmem2 : crossZ Y ⟨(cpt + a • toVec X + b • toVec Y).1 - cpt.1,
      (cpt + a • toVec X + b • toVec Y).2 - cpt.2⟩ ≠ 0 := by
    intro h0
    apply hl2
    show vcross (toVec Y) ((cpt + a • toVec X + b • toVec Y) - cpt) = 0
    exact h0
  rw [crossZ_combo_left hpx hpy] at hlmem1
  have hb0 : b ≠ 0 := by
    intro h0
    rw [h0, zero_mul] at hlmem1
    exact hlmem1 rfl
  have ha0 : a ≠ 0 := by
    intro h0
    apply hlmem2
    rw [crossZ_anticomm, crossZ_combo_right hpx hpy, h0, zero_mul, neg_zero]
  exact ⟨a, b, lt_of_le_of_ne ha (Ne.symm ha0), lt_of_le_of_ne hb (Ne.symm hb0), hpx, hpy⟩

theorem fourLines_null (cpt : ℝ × ℝ) {X1 Y1 X2 Y2 : Point ℝ}
    (h1 : crossZ X1 Y1 ≠ 0) (h2 : crossZ X2 Y2 ≠ 0) :
    volume (lineThrough cpt (toVec X1) ∪ lineThrough cpt (toVec Y1) ∪
      (lineThrough cpt (toVec X2) ∪ lineThrough cpt (toVec Y2))) = 0 := by
  obtain ⟨hX1, hY1⟩ := toVec_ne_zero_of_crossZ h1
  obtain ⟨hX2, hY2⟩ := toVec_ne_zero_of_crossZ h2
  refine measure_union_null (measure_union_null ?_ ?_) (measure_union_null ?_ ?_) <;>
    apply lineThrough_null
  · exact hX1
  · exact hY1
  · exact hX2
  · exact hY2

theorem sector_inter_null_ordered (cpt : ℝ × ℝ) {X1 Y1 X2 Y2 : Point ℝ}
    (h1pos : 0 < crossZ X1 Y1) (h2pos : 0 < crossZ X2 Y2)
    (hs1 : angLEp X1 Y1) (hs2 : angLEp X2 Y2) (hmid : angLEp Y1 X2) :
    volume (triSet cpt (toVec X1) (toVec Y1) ∩ triSet cpt (toVec X2) (toVec Y2)) = 0 := by
  apply measure_mono_null ?_ (fourLines_null cpt (ne_of_gt h1pos) (ne_of_gt h2pos))
  rintro x ⟨hx1, hx2⟩
  by_contra hnot
  simp only [Set.mem_union, not_or] at hnot
  obtain ⟨⟨hnl1, hnl2⟩, hnl3, hnl4⟩ := hnot
  obtain ⟨a, b, ha, hb, hpx, hpy⟩ := triSet_mem_strict hx1 hnl1 hnl2
  obtain ⟨c, d, hc, hd, hqx, hqy⟩ := triSet_mem_strict hx2 hnl3 hnl4
  obtain ⟨_, hlt1⟩ := strict_in_sector hs1 h1pos ha hb hpx hpy
  obtain ⟨hlt2, _⟩ := strict_in_sector hs2 h2pos hc hd hqx hqy
  exact angLTp_asymm (angLTp_of_angLTp_of_angLEp hlt1 hmid) hlt2

theorem sector_inter_null_wrap (cpt : ℝ × ℝ) {X1 Y1 X2 Y2 : Point ℝ}
    (h1pos : 0 < crossZ X1 Y1) (h2pos : 0 < crossZ X2 Y2)
    (hs1 : angLEp X1 Y1) (hw2 : angLEp Y2 X2)
    (hY2X1 : angLEp Y2 X1) (hY1X2 : angLEp Y1 X2) :
    volume (triSet cpt (toVec X1) (toVec Y1) ∩ triSet cpt (toVec X2) (toVec Y2)) = 0 := by
  apply measure_mono_null ?_ (fourLines_null cpt (ne_of_gt h1pos) (ne_of_gt h2pos))
  rintro x ⟨hx1, hx2⟩
  by_contra hnot
  simp only [Set.mem_union, not_or] at hnot
  obtain ⟨⟨hnl1, hnl2⟩, hnl3, hnl4⟩ := hnot
  obtain ⟨a, b, ha, hb, hpx, hpy⟩ := triSet_mem_strict hx1 hnl1 hnl2
  obtain ⟨c, d, hc, hd, hqx, hqy⟩ := triSet_mem_strict hx2 hnl3 hnl4
  obtain ⟨hlt1, hlt2⟩ := strict_in_sector hs1 h1pos ha hb hpx hpy
  rcases strict_in_wrap hw2 h2pos hc hd hqx hqy with hcase | hcase
  · exact angLTp_asymm (angLTp_of_angLTp_of_angLEp hcase hY2X1) hlt1
  · exact angLTp_asymm (angLTp_of_angLTp_of_angLEp hlt2 hY1X2) hcase

theorem no_two_internal_neg {x1 y1 x2 y2 : Point ℝ}
    (hs1 : angLEp x1 y1) (hs2 : angLEp x2 y2) (hmid : angLEp y1 x2)
    (hn1 : crossZ x1 y1 < 0) (hn2 : crossZ x2 y2 < 0) : False := by
  obtain ⟨_, hcy1⟩ := internal_neg_classes hs1 hn1
  obtain ⟨hcx2, _⟩ := internal_neg_classes hs2 hn2
  have hle := angLEp_cls_le hmid
  rcases hcy1 with h | h <;> omega

theorem no_internal_and_wrap_neg {x1 y1 xe y0 : Point ℝ}
    (hs1 : angLEp x1 y1) (hn1 : crossZ x1 y1 < 0)
    (hwneg : crossZ xe y0 < 0)
    (h01 : angLEp y0 x1) (h1e : angLEp y1 xe) : False := by
  obtain ⟨hcx1, hcy1⟩ := internal_neg_classes hs1 hn1
  have hc0 : angClass y0 = 0 := by
    have := angLEp_cls_le h01
    omega
  have hce2 : 2 ≤ angClass xe := by
    have := angLEp_cls_le h1e
    rcases hcy1 with h | h <;> omega
  have hce4 := angClass_lt_four xe
  have hcenot3 : angClass xe ≠ 3 := by
    intro h3
    exact absurd (cls3_cls0_cross_pos h3 hc0) (not_lt.2 (le_of_lt hwneg))
  have hce : angClass xe = 2 := by omega
  have hcy1eq : angClass y1 = 2 := by
    have := angLEp_cls_le h1e
    rcases hcy1 with h | h <;> omega
  have hya : y0.y < 0 := angClass_eq_zero_iff.1 hc0
  have hyb : x1.y < 0 := angClass_eq_zero_iff.1 hcx1
  have hyc : 0 < y1.y := angClass_eq_two_iff.1 hcy1eq
  have hyd : 0 < xe.y := angClass_eq_two_iff.1 hce
  have hab : 0 ≤ crossZ y0 x1 := crossZ_nonneg_of_cls_eq h01 (by omega)
  have hcd : 0 ≤ crossZ y1 xe := crossZ_nonneg_of_cls_eq h1e (by omega)
  exact absurd (four_point_wrap hya hyb hyc hyd hab hn1 hcd)
    (not_lt.2 (le_of_lt hwneg))

theorem fin_succ_val {n : ℕ} [NeZero n] (hn : 2 ≤ n) (i : Fin n) :
    ((i + 1 : Fin n)).val = (i.val + 1) % n := by
  have h1 : ((1 : Fin n)).val = 1 := by
    rw [Fin.val_one']
    exact Nat.mod_eq_of_lt (by omega)
  rw [Fin.val_add, h1]

theorem fin_succ_val_internal {n : ℕ} [NeZero n] (hn : 2 ≤ n) {i : Fin n}
    (h : i.val + 1 < n) : ((i + 1 : Fin n)).val = i.val + 1 := by
  rw [fin_succ_val hn i]
  exact Nat.mod_eq_of_lt h

theorem fin_succ_wrap {n : ℕ} [NeZero n] (hn : 2 ≤ n) {i : Fin n}
    (h : i.val + 1 = n) : (i + 1 : Fin n) = 0 := by
  apply Fin.ext
  rw [fin_succ_val hn i, h, Nat.mod_self]
  simp

theorem cyclic_crossZ_sum_bound {n : ℕ} [NeZero n] (hn3 : 3 ≤ n)
    (u : Fin n → Point ℝ) (cpt : ℝ × ℝ) (T : Set (ℝ × ℝ)) (hT : Convex ℝ T)
    (M : ℝ) (hM : 0 ≤ M) (hvolT : volume T ≤ ENNReal.ofReal M)
    (hc : cpt ∈ T) (hmemT : ∀ i, cpt + toVec (u i) ∈ T)
    (hsorted : ∀ i j : Fin n, i ≤ j → angLEp (u i) (u j)) :
    |∑ i : Fin n, crossZ (u i) (u (i + 1))| ≤ 2 * M := by
  classical
  have hn2 : 2 ≤ n := by omega
  have h0le : ∀ k : Fin n, ((0 : Fin n)).val ≤ k.val := by
    intro k
    have h0v : ((0 : Fin n)).val = 0 := by simp
    omega
  have hSle : ∀ i j : Fin n, i.val ≤ j.val → angLEp (u i) (u j) :=
    fun i j h => hsorted i j (Fin.le_def.2 h)
  have hval : ∀ i : Fin n, i.val + 1 < n → ((i + 1 : Fin n)).val = i.val + 1 :=
    fun i h => fin_succ_val_internal hn2 h
  have hwrap : ∀ i : Fin n, i.val + 1 = n → (i + 1 : Fin n) = 0 :=
    fun i h => fin_succ_wrap hn2 h
  have hTsub : ∀ i : Fin n, triSet cpt (toVec (u i)) (toVec (u (i + 1))) ⊆ T :=
    fun i => triSet_subset_convex hT hc (hmemT i) (hmemT (i + 1))
  have hvol : ∀ i : Fin n, volume (triSet cpt (toVec (u i)) (toVec (u (i + 1)))) =
      ENNReal.ofReal (|crossZ (u i) (u (i + 1))| / 2) :=
    fun i => volume_triSet cpt (toVec (u i)) (toVec (u (i + 1)))
  have htri : ∀ i : Fin n, |crossZ (u i) (u (i + 1))| / 2 ≤ M := by
    intro i
    have h1 : volume (triSet cpt (toVec (u i)) (toVec (u (i + 1)))) ≤ ENNReal.ofReal M :=
      le_trans (measure_mono (hTsub i)) hvolT
    rw [hvol i] at h1
    exact (ENNReal.ofReal_le_ofReal_iff hM).1 h1
  have hdisj : ∀ i j : Fin n, i ≠ j → 0 < crossZ (u i) (u (i + 1)) →
      0 < crossZ (u j) (u (j + 1)) →
      volume (triSet cpt (toVec (u i)) (toVec (u (i + 1))) ∩
        triSet cpt (toVec (u j)) (toVec (u (j + 1)))) = 0 := by
    have key : ∀ i j : Fin n, i.val < j.val → 0 < crossZ (u i) (u (i + 1)) →
        0 < crossZ (u j) (u (j + 1)) →
        volume (triSet cpt (toVec (u i)) (toVec (u (i + 1))) ∩
          triSet cpt (toVec (u j)) (toVec (u (j + 1)))) = 0 := by
      intro i j hij hpi hpj
      have hi : i.val + 1 < n := by have := j.isLt; omega
      have hvi : ((i + 1 : Fin n)).val = i.val + 1 := hval i hi
      have hs1 : angLEp (u i) (u (i + 1)) := hSle i (i + 1) (by omega)
      rcases Nat.lt_or_ge (j.val + 1) n with hj | hj
      · have hvj : ((j + 1 : Fin n)).val = j.val + 1 := hval j hj
        have hs2 : angLEp (u j) (u (j + 1)) := hSle j (j + 1) (by omega)
        have hmid : angLEp (u (i + 1)) (u j) := hSle (i + 1) j (by omega)
        exact sector_inter_null_ordered cpt hpi hpj hs1 hs2 hmid
      · have hjn : j.val + 1 = n := by have := j.isLt; omega
        have hj0 : (j + 1 : Fin n) = 0 := hwrap j hjn
        have hw2 : angLEp (u (j + 1)) (u j) := by
          rw [hj0]
          exact hSle 0 j (h0le j)
        have hY2X1 : angLEp (u (j + 1)) (u i) := by
          rw [hj0]
          exact hSle 0 i (h0le i)
        have hY1X2 : angLEp (u (i + 1)) (u j) := hSle (i + 1) j (by omega)
        exact sector_inter_null_wrap cpt hpi hpj hs1 hw2 hY2X1 hY1X2
    intro i j hne hpi hpj
    have hne' : i.val ≠ j.val := fun h => hne (Fin.ext h)
    rcases Nat.lt_or_ge i.val j.val with h | h
    · exact key i j h hpi hpj
    · have h2 : j.val < i.val := by omega
      rw [Set.inter_comm]
      exact key j i h2 hpj hpi
  have hupper : ∑ i : Fin n, crossZ (u i) (u (i + 1)) ≤ 2 * M := by
    have hsplit : ∑ i : Fin n, crossZ (u i) (u (i + 1)) ≤
        ∑ i ∈ Finset.univ.filter (fun i : Fin n => 0 < crossZ (u i) (u (i + 1))),
          crossZ (u i) (u (i + 1)) := by
      rw [← Finset.sum_filter_add_sum_filter_not Finset.univ
        (fun i : Fin n => 0 < crossZ (u i) (u (i + 1)))
        (fun i => crossZ (u i) (u (i + 1)))]
      have hnonpos : ∑ i ∈ Finset.univ.filter
          (fun i : Fin n => ¬0 < crossZ (u i) (u (i + 1))),
          crossZ (u i) (u (i + 1)) ≤ 0 :=
        Finset.sum_nonpos fun i hi => le_of_not_lt (Finset.mem_filter.1 hi).2
      linarith
    have habs : ∀ i ∈ Finset.univ.filter (fun i : Fin n => 0 < crossZ (u i) (u (i + 1))),
        crossZ (u i) (u (i + 1)) = 2 * (|crossZ (u i) (u (i + 1))| / 2) := by
      intro i hi
      have hpos := (Finset.mem_filter.1 hi).2
      rw [abs_of_pos hpos]
      ring
    rw [Finset.sum_congr rfl habs, ← Finset.mul_sum] at hsplit
    have hmeas : ∑ i ∈ Finset.univ.filter (fun i : Fin n => 0 < crossZ (u i) (u (i + 1))),
        (|crossZ (u i) (u (i + 1))| / 2) ≤ M := by
      set S := Finset.univ.filter (fun i : Fin n => 0 < crossZ (u i) (u (i + 1))) with hS
      have h1 : ENNReal.ofReal (∑ i ∈ S, (|crossZ (u i) (u (i + 1))| / 2)) =
          ∑ i ∈ S, ENNReal.ofReal (|crossZ (u i) (u (i + 1))| / 2) :=
        ENNReal.ofReal_sum_of_nonneg (fun i _ => by positivity)
      have h2 : ∑ i ∈ S, ENNReal.ofReal (|crossZ (u i) (u (i + 1))| / 2) =
          ∑ i ∈ S, volume (triSet cpt (toVec (u i)) (toVec (u (i + 1)))) :=
        Finset.sum_congr rfl fun i _ => (hvol i).symm
      have hpairwise : (S : Set (Fin n)).Pairwise
          (Function.onFun (MeasureTheory.AEDisjoint volume)
            (fun i => triSet cpt (toVec (u i)) (toVec (u (i + 1))))) := by
        intro i hi j hj hne
        have hi' : 0 < crossZ (u i) (u (i + 1)) :=
          (Finset.mem_filter.1 (Finset.mem_coe.1 hi)).2
        have hj' : 0 < crossZ (u j) (u (j + 1)) :=
          (Finset.mem_filter.1 (Finset.mem_coe.1 hj)).2
        exact hdisj i j hne hi' hj'
      have hnullm : ∀ i ∈ S, MeasureTheory.NullMeasurableSet
          (triSet cpt (toVec (u i)) (toVec (u (i + 1)))) volume :=
        fun i _ => ((triSet_isCompact _ _ _).isClosed.measurableSet).nullMeasurableSet
      have h3 : ∑ i ∈ S, volume (triSet cpt (toVec (u i)) (toVec (u (i + 1)))) =
          volume (⋃ i ∈ S, triSet cpt (toVec (u i)) (toVec (u (i + 1)))) :=
        (MeasureTheory.measure_biUnion_finset₀ hpairwise hnullm).symm
      have h4 : volume (⋃ i ∈ S, triSet cpt (toVec (u i)) (toVec (u (i + 1)))) ≤
          ENNReal.ofReal M :=
        le_trans (measure_mono (Set.iUnion₂_subset fun i _ => hTsub i)) hvolT
      have h5 : ENNReal.ofReal (∑ i ∈ S, (|crossZ (u i) (u (i + 1))| / 2)) ≤
          ENNReal.ofReal M := by
        rw [h1, h2, h3]
        exact h4
      exact (ENNReal.ofReal_le_ofReal_iff hM).1 h5
    linarith
  have hlower : -(2 * M) ≤ ∑ i : Fin n, crossZ (u i) (u (i + 1)) := by
    by_cases hex : ∃ k : Fin n, crossZ (u k) (u (k + 1)) < 0
    · obtain ⟨k, hk⟩ := hex
      have honly : ∀ i : Fin n, i ≠ k → 0 ≤ crossZ (u i) (u (i + 1)) := by
        intro i hne
        by_contra hneg
        push_neg at hneg
        have key2 : ∀ a b : Fin n, a.val < b.val → crossZ (u a) (u (a + 1)) < 0 →
            crossZ (u b) (u (b + 1)) < 0 → False := by
          intro a b hab hna hnb
          have hia : a.val + 1 < n := by have := b.isLt; omega
          have hva : ((a + 1 : Fin n)).val = a.val + 1 := hval a hia
          have hs1 : angLEp (u a) (u (a + 1)) := hSle a (a + 1) (by omega)
          rcases Nat.lt_or_ge (b.val + 1) n with hb | hb
          · have hvb : ((b + 1 : Fin n)).val = b.val + 1 := hval b hb
            have hs2 : angLEp (u b) (u (b + 1)) := hSle b (b + 1) (by omega)
            have hmid : angLEp (u (a + 1)) (u b) := hSle (a + 1) b (by omega)
            exact no_two_internal_neg hs1 hs2 hmid hna hnb
          · have hbn : b.val + 1 = n := by have := b.isLt; omega
            have hb0 : (b + 1 : Fin n) = 0 := hwrap b hbn
            have h01 : angLEp (u (b + 1)) (u a) := by
              rw [hb0]
              exact hSle 0 a (h0le a)
            have h1e : angLEp (u (a + 1)) (u b) := hSle (a + 1) b (by omega)
            exact no_internal_and_wrap_neg hs1 hna hnb h01 h1e
        have hne' : i.val ≠ k.val := fun h => hne (Fin.ext h)
        rcases Nat.lt_or_ge i.val k.val with h | h
        · exact key2 i k h hneg hk
        · exact key2 k i (by omega) hk hneg
      have hsum := (Finset.add_sum_erase Finset.univ
        (fun i : Fin n => crossZ (u i) (u (i + 1))) (Finset.mem_univ k)).symm
      have hrest : 0 ≤ ∑ i ∈ Finset.univ.erase k, crossZ (u i) (u (i + 1)) :=
        Finset.sum_nonneg fun i hi => honly i (Finset.ne_of_mem_erase hi)
      have hkbound : -(2 * M) ≤ crossZ (u k) (u (k + 1)) := by
        have h1 := htri k
        have h2 := neg_abs_le (crossZ (u k) (u (k + 1)))
        linarith
      rw [hsum]
      linarith
    · push_neg at hex
      have hpos : 0 ≤ ∑ i : Fin n, crossZ (u i) (u (i + 1)) :=
        Finset.sum_nonneg fun i _ => hex i
      linarith
  exact abs_le.2 ⟨hlower, hupper⟩

end MeasureLemmas

theorem ratCast_list_sum (l : List ℚ) :
    ((l.sum : ℚ) : ℝ) = (l.map fun x : ℚ => (x : ℝ)).sum := by
  push_cast
  rfl

section HullLemmas

open MeasureTheory

theorem triSet_convex (p u w : ℝ × ℝ) : Convex ℝ (triSet p u w) := by
  intro x hx y hy θ η hθ hη hθη
  rcases mem_triSet_iff.1 hx with ⟨a1, b1, ha1, hb1, hab1, rfl⟩
  rcases mem_triSet_iff.1 hy with ⟨a2, b2, ha2, hb2, hab2, rfl⟩
  refine mem_triSet_iff.2 ⟨θ * a1 + η * a2, θ * b1 + η * b2,
    add_nonneg (mul_nonneg hθ ha1) (mul_nonneg hη ha2),
    add_nonneg (mul_nonneg hθ hb1) (mul_nonneg hη hb2), ?_, ?_⟩
  · nlinarith [mul_le_mul_of_nonneg_left hab1 hθ, mul_le_mul_of_nonneg_left hab2 hη]
  · have hθ' : θ = 1 - η := by linarith
    subst hθ'
    apply Prod.ext <;>
      simp only [Prod.fst_add, Prod.snd_add, Prod.smul_fst, Prod.smul_snd,
        smul_eq_mul] <;> ring

theorem convexHull_triple_eq_triSet (A B C : ℝ × ℝ) :
    convexHull ℝ {A, B, C} = triSet A (B - A) (C - A) := by
  apply Set.Subset.antisymm
  · apply convexHull_min
    · intro x hx
      simp only [Set.mem_insert_iff, Set.mem_singleton_iff] at hx
      rcases hx with rfl | rfl | rfl
      · exact mem_triSet_iff.2 ⟨0, 0, le_refl 0, le_refl 0, by norm_num, by simp⟩
      · refine mem_triSet_iff.2 ⟨1, 0, zero_le_one, le_refl 0, by norm_num, ?_⟩
        simp only [one_smul, zero_smul, add_zero]
        abel
      · refine mem_triSet_iff.2 ⟨0, 1, le_refl 0, zero_le_one, by norm_num, ?_⟩
        simp only [one_smul, zero_smul, add_zero, zero_add]
        abel
    · exact triSet_convex A (B - A) (C - A)
  · apply triSet_subset_convex (convex_convexHull ℝ _)
    · exact subset_convexHull ℝ _ (by simp)
    · have hAB : A + (B - A) = B := by abel
      rw [hAB]
      exact subset_convexHull ℝ _ (by simp)
    · have hAC : A + (C - A) = C := by abel
      rw [hAC]
      exact subset_convexHull ℝ _ (by simp)

theorem volume_convexHull_triple (A B C : ℝ × ℝ) :
    volume (convexHull ℝ {A, B, C}) =
      ENNReal.ofReal
        (|(B.1 - A.1) * (C.2 - A.2) - (B.2 - A.2) * (C.1 - A.1)| / 2) := by
  rw [convexHull_triple_eq_triSet, volume_triSet]
  rfl

theorem candidate_in_hull {t : Tri ℚ} {q : Quad ℚ} {p : Point ℚ}
    (hp : p ∈ clipCandidates t q) :
    toVec (castPoint p) ∈ convexHull ℝ
      ({toVec (castPoint t.a), toVec (castPoint t.b), toVec (castPoint t.c)} :
        Set (ℝ × ℝ)) := by
  have hT : Convex ℝ (convexHull ℝ
      ({toVec (castPoint t.a), toVec (castPoint t.b), toVec (castPoint t.c)} :
        Set (ℝ × ℝ))) := convex_convexHull ℝ _
  have hA : toVec (castPoint t.a) ∈ convexHull ℝ
      ({toVec (castPoint t.a), toVec (castPoint t.b), toVec (castPoint t.c)} :
        Set (ℝ × ℝ)) := subset_convexHull ℝ _ (by simp)
  have hB : toVec (castPoint t.b) ∈ convexHull ℝ
      ({toVec (castPoint t.a), toVec (castPoint t.b), toVec (castPoint t.c)} :
        Set (ℝ × ℝ)) := subset_convexHull ℝ _ (by simp)
  have hC : toVec (castPoint t.c) ∈ convexHull ℝ
      ({toVec (castPoint t.a), toVec (castPoint t.b), toVec (castPoint t.c)} :
        Set (ℝ × ℝ)) := subset_convexHull ℝ _ (by simp)
  unfold clipCandidates at hp
  rcases List.mem_append.1 hp with h | h
  · have hmem := (List.mem_filter.1 h).1
    simp only [List.mem_cons, List.not_mem_nil, or_false] at hmem
    rcases hmem with rfl | rfl | rfl
    · exact hA
    · exact hB
    · exact hC
  · rcases List.mem_flatMap.1 h with ⟨te, hte, hmem2⟩
    rcases List.mem_filterMap.1 hmem2 with ⟨re, hre, hsome⟩
    obtain ⟨hd, hua0, hua1, _, _, hpeq⟩ := lineSegmentIntersection_eq_some_iff hsome
    have hends : toVec (castPoint te.1) ∈ convexHull ℝ
        ({toVec (castPoint t.a), toVec (castPoint t.b), toVec (castPoint t.c)} :
          Set (ℝ × ℝ)) ∧ toVec (castPoint te.2) ∈ convexHull ℝ
        ({toVec (castPoint t.a), toVec (castPoint t.b), toVec (castPoint t.c)} :
          Set (ℝ × ℝ)) := by
      unfold triEdges at hte
      simp only [List.mem_cons, List.not_mem_nil, or_false] at hte
      rcases hte with rfl | rfl | rfl
      · exact ⟨hA, hB⟩
      · exact ⟨hB, hC⟩
      · exact ⟨hC, hA⟩
    have h1 : (0 : ℝ) ≤ 1 - ((interUA te.1 te.2 re.1 re.2 : ℚ) : ℝ) := by
      have : ((interUA te.1 te.2 re.1 re.2 : ℚ) : ℝ) ≤ 1 := by exact_mod_cast hua1
      linarith
    have h2 : (0 : ℝ) ≤ ((interUA te.1 te.2 re.1 re.2 : ℚ) : ℝ) := by
      exact_mod_cast hua0
    have h3 : (1 - ((interUA te.1 te.2 re.1 re.2 : ℚ) : ℝ)) +
        ((interUA te.1 te.2 re.1 re.2 : ℚ) : ℝ) = 1 := by ring
    have hmem := hT hends.1 hends.2 h1 h2 h3
    have heq : toVec (castPoint p) =
        (1 - ((interUA te.1 te.2 re.1 re.2 : ℚ) : ℝ)) • toVec (castPoint te.1) +
        ((interUA te.1 te.2 re.1 re.2 : ℚ) : ℝ) • toVec (castPoint te.2) := by
      rw [hpeq]
      unfold toVec castPoint
      apply Prod.ext <;>
        simp only [Prod.fst_add, Prod.snd_add, Prod.smul_fst, Prod.smul_snd,
          smul_eq_mul] <;> push_cast <;> ring
    rw [heq]
    exact hmem

theorem fin_sum_get {β M : Type*} [AddCommMonoid M] (l : List β) (f : β → M) :
    ∑ i : Fin l.length, f (l.get i) = (l.map f).sum := by
  rw [← List.ofFn_getElem_eq_map l f, List.sum_ofFn]
  simp [List.get_eq_getElem]

theorem centroid_cast_mem_convex {U : List (Point ℚ)} {T : Set (ℝ × ℝ)}
    (hT : Convex ℝ T) (hne : U.length ≠ 0)
    (hmem : ∀ p ∈ U, toVec (castPoint p) ∈ T) :
    (((centroidX U : ℚ) : ℝ), ((centroidY U : ℚ) : ℝ)) ∈ T := by
  have hlen : (0 : ℝ) < (U.length : ℝ) := by
    have := Nat.pos_of_ne_zero hne
    exact_mod_cast this
  have h0 : ∀ i ∈ (Finset.univ : Finset (Fin U.length)),
      0 ≤ ((U.length : ℝ))⁻¹ := fun i _ => by positivity
  have h1 : ∑ _i ∈ (Finset.univ : Finset (Fin U.length)), ((U.length : ℝ))⁻¹ = 1 := by
    rw [Finset.sum_const, Finset.card_univ, Fintype.card_fin, nsmul_eq_mul]
    exact mul_inv_cancel₀ (ne_of_gt hlen)
  have hz : ∀ i ∈ (Finset.univ : Finset (Fin U.length)),
      toVec (castPoint (U.get i)) ∈ T :=
    fun i _ => hmem _ (List.get_mem U i.1 i.2)
  have hsum := hT.sum_mem h0 h1 hz
  have hx : (∑ i ∈ (Finset.univ : Finset (Fin U.length)),
      ((U.length : ℝ))⁻¹ • toVec (castPoint (U.get i))).1 =
      ((centroidX U : ℚ) : ℝ) := by
    rw [Prod.fst_sum]
    simp only [Prod.smul_fst, smul_eq_mul]
    rw [← Finset.mul_sum]
    have hs : ∑ i : Fin U.length, (toVec (castPoint (U.get i))).1 =
        (U.map fun p : Point ℚ => ((p.x : ℚ) : ℝ)).sum :=
      fin_sum_get U (fun p : Point ℚ => ((p.x : ℚ) : ℝ))
    rw [hs]
    unfold centroidX
    rw [Rat.cast_div, Rat.cast_natCast, ratCast_list_sum, List.map_map,
      inv_mul_eq_div]
    rfl
  have hy : (∑ i ∈ (Finset.univ : Finset (Fin U.length)),
      ((U.length : ℝ))⁻¹ • toVec (castPoint (U.get i))).2 =
      ((centroidY U : ℚ) : ℝ) := by
    rw [Prod.snd_sum]
    simp only [Prod.smul_snd, smul_eq_mul]
    rw [← Finset.mul_sum]
    have hs : ∑ i : Fin U.length, (toVec (castPoint (U.get i))).2 =
        (U.map fun p : Point ℚ => ((p.y : ℚ) : ℝ)).sum :=
      fin_sum_get U (fun p : Point ℚ => ((p.y : ℚ) : ℝ))
    rw [hs]
    unfold centroidY
    rw [Rat.cast_div, Rat.cast_natCast, ratCast_list_sum, List.map_map,
      inv_mul_eq_div]
    rfl
  have heq : ∑ i ∈ (Finset.univ : Finset (Fin U.length)),
      ((U.length : ℝ))⁻¹ • toVec (castPoint (U.get i)) =
      ((((centroidX U : ℚ) : ℝ)), ((centroidY U : ℚ) : ℝ)) := Prod.ext hx hy
  rw [heq] at hsum
  exact hsum

end HullLemmas

theorem shoelaceSum_map_eq_cyclic {β : Type*} (l : List β) (f : β → Point α)
    [NeZero l.length] (h2 : 2 ≤ l.length) :
    shoelaceSum (l.map f) =
      ∑ i : Fin l.length, crossZ (f (l.get i)) (f (l.get (i + 1))) := by
  unfold shoelaceSum
  have hlist : (((l.map f).zip ((l.map f).rotate 1)).map
      fun pq => pq.1.x * pq.2.y - pq.2.x * pq.1.y) =
      List.ofFn (fun i : Fin l.length => crossZ (f (l.get i)) (f (l.get (i + 1)))) := by
    apply List.ext_get
    · simp
    · intro n h1 h2'
      have hn : n < l.length := by simpa using h2'
      have hidx : ((⟨n, hn⟩ : Fin l.length) + 1).val = (n + 1) % l.length :=
        fin_succ_val h2 _
      simp only [List.get_eq_getElem, List.getElem_map, List.getElem_zip,
        List.getElem_rotate, List.getElem_ofFn, List.length_map, hidx]
      unfold crossZ
      ring
  rw [hlist, List.sum_ofFn]

theorem cyclic_center {n : ℕ} [NeZero n] (P : Fin n → Point α) (c : Point α) :
    ∑ i : Fin n, crossZ (subPoint (P i) c) (subPoint (P (i + 1)) c) =
      ∑ i : Fin n, crossZ (P i) (P (i + 1)) := by
  have hterm : ∀ i : Fin n, crossZ (subPoint (P i) c) (subPoint (P (i + 1)) c) =
      crossZ (P i) (P (i + 1)) - crossZ (P i) c - crossZ c (P (i + 1)) := by
    intro i
    unfold crossZ subPoint
    ring
  rw [Finset.sum_congr rfl fun i _ => hterm i, Finset.sum_sub_distrib,
    Finset.sum_sub_distrib]
  have hshift : ∑ i : Fin n, crossZ c (P (i + 1)) = ∑ i : Fin n, crossZ c (P i) :=
    Fintype.sum_equiv (Equiv.addRight (1 : Fin n)) _ _ (fun i => rfl)
  rw [hshift]
  have hcancel : ∑ i : Fin n, crossZ (P i) c + ∑ i : Fin n, crossZ c (P i) = 0 := by
    rw [← Finset.sum_add_distrib]
    apply Finset.sum_eq_zero
    intro i _
    rw [crossZ_anticomm]
    ring
  linarith

theorem crossZ_cast (v w : Point ℚ) :
    crossZ (castPoint v) (castPoint w) = ((crossZ v w : ℚ) : ℝ) := by
  unfold crossZ castPoint
  push_cast
  ring

theorem cross_cast (o a b : Point ℚ) :
    cross (castPoint o) (castPoint a) (castPoint b) = ((cross o a b : ℚ) : ℝ) := by
  unfold cross castPoint
  push_cast
  ring

theorem angClass_cast (v : Point ℚ) : angClass (castPoint v) = angClass v := by
  unfold angClass castPoint
  simp only [Rat.cast_lt_zero, Rat.cast_eq_zero, Rat.cast_pos, Rat.cast_nonneg]

theorem angLEp_cast {v w : Point ℚ} (h : angLEp v w) :
    angLEp (castPoint v) (castPoint w) := by
  unfold angLEp at h ⊢
  rw [angClass_cast, angClass_cast, crossZ_cast]
  rcases h with h | ⟨he, hc⟩
  · exact Or.inl h
  · refine Or.inr ⟨he, fun hp => hc ?_⟩
    exact_mod_cast hp

theorem subPoint_cast (p c : Point ℚ) :
    subPoint (castPoint p) (castPoint c) = castPoint ⟨p.x - c.x, p.y - c.y⟩ := by
  unfold subPoint castPoint
  simp only [Point.mk.injEq]
  constructor <;> push_cast <;> ring

theorem shoelace_term_cast (L : List (Point ℚ × Point ℚ)) :
    ((L.map (Prod.map castPoint castPoint)).map
      (fun pq : Point ℝ × Point ℝ => pq.1.x * pq.2.y - pq.2.x * pq.1.y)).sum =
      (((L.map fun pq : Point ℚ × Point ℚ =>
        pq.1.x * pq.2.y - pq.2.x * pq.1.y).sum : ℚ) : ℝ) := by
  induction L with
  | nil => simp
  | cons a t ih =>
    simp only [List.map_cons, List.sum_cons, ih, Prod.map_fst, Prod.map_snd]
    unfold castPoint
    push_cast
    ring

theorem shoelaceSum_cast (l : List (Point ℚ)) :
    shoelaceSum (l.map castPoint) = ((shoelaceSum l : ℚ) : ℝ) := by
  unfold shoelaceSum
  rw [← List.map_rotate, List.zip_map]
  exact shoelace_term_cast (l.zip (l.rotate 1))

theorem sorted_hull_shoelace_bound (L : List (Point ℚ)) (cx cy : ℚ) (A B C : Point ℚ)
    (hn3 : 3 ≤ L.length)
    (hsorted : List.Sorted (angleOrder cx cy) L)
    (hmemT : ∀ p ∈ L, toVec (castPoint p) ∈ convexHull ℝ
      ({toVec (castPoint A), toVec (castPoint B), toVec (castPoint C)} : Set (ℝ × ℝ)))
    (hcent : (((cx : ℚ) : ℝ), ((cy : ℚ) : ℝ)) ∈ convexHull ℝ
      ({toVec (castPoint A), toVec (castPoint B), toVec (castPoint C)} : Set (ℝ × ℝ))) :
    |shoelaceSum L| ≤ |cross A B C| := by
  haveI : NeZero L.length := ⟨by omega⟩
  set T := convexHull ℝ
    ({toVec (castPoint A), toVec (castPoint B), toVec (castPoint C)} :
      Set (ℝ × ℝ)) with hTdef
  set M := |((cross A B C : ℚ) : ℝ)| / 2 with hMdef
  have hTconv : Convex ℝ T := by
    rw [hTdef]
    exact convex_convexHull ℝ _
  have hM : 0 ≤ M := by
    rw [hMdef]
    positivity
  have hvolT : MeasureTheory.volume T ≤ ENNReal.ofReal M := by
    have harea : |((toVec (castPoint B)).1 - (toVec (castPoint A)).1) *
        ((toVec (castPoint C)).2 - (toVec (castPoint A)).2) -
        ((toVec (castPoint B)).2 - (toVec (castPoint A)).2) *
        ((toVec (castPoint C)).1 - (toVec (castPoint A)).1)| =
        |((cross A B C : ℚ) : ℝ)| :=
      congrArg abs (by unfold toVec castPoint cross; push_cast; ring)
    rw [hTdef, volume_convexHull_triple, harea, hMdef]
  have hc : toVec (castPoint ⟨cx, cy⟩) ∈ T := hcent
  have hmem' : ∀ i : Fin L.length, toVec (castPoint ⟨cx, cy⟩) +
      toVec (subPoint (castPoint (L.get i)) (castPoint ⟨cx, cy⟩)) ∈ T := by
    intro i
    have hpt : toVec (castPoint ⟨cx, cy⟩) +
        toVec (subPoint (castPoint (L.get i)) (castPoint ⟨cx, cy⟩)) =
        toVec (castPoint (L.get i)) := by
      unfold toVec subPoint castPoint
      apply Prod.ext <;> simp only [Prod.fst_add, Prod.snd_add] <;> ring
    rw [hpt]
    exact hmemT _ (List.get_mem L i.1 i.2)
  have hsorted' : ∀ i j : Fin L.length, i ≤ j →
      angLEp (subPoint (castPoint (L.get i)) (castPoint ⟨cx, cy⟩))
        (subPoint (castPoint (L.get j)) (castPoint ⟨cx, cy⟩)) := by
    intro i j hij
    rcases lt_or_eq_of_le hij with hlt | heq
    · have hp : angleOrder cx cy (L.get i) (L.get j) :=
        List.pairwise_iff_getElem.1 hsorted i.1 j.1 i.2 j.2 (Fin.lt_def.1 hlt)
      rw [subPoint_cast, subPoint_cast]
      exact angLEp_cast hp
    · rw [heq]
      exact angLEp_refl _
  have master := cyclic_crossZ_sum_bound hn3
    (fun i => subPoint (castPoint (L.get i)) (castPoint ⟨cx, cy⟩))
    (toVec (castPoint ⟨cx, cy⟩)) T hTconv M hM hvolT hc hmem' hsorted'
  have hcyc : ∑ i : Fin L.length,
      crossZ (subPoint (castPoint (L.get i)) (castPoint ⟨cx, cy⟩))
        (subPoint (castPoint (L.get (i + 1))) (castPoint ⟨cx, cy⟩)) =
      ∑ i : Fin L.length,
        crossZ (castPoint (L.get i)) (castPoint (L.get (i + 1))) :=
    cyclic_center (fun i => castPoint (L.get i)) (castPoint ⟨cx, cy⟩)
  have hshoe : shoelaceSum (L.map castPoint) =
      ∑ i : Fin L.length,
        crossZ (castPoint (L.get i)) (castPoint (L.get (i + 1))) :=
    shoelaceSum_map_eq_cyclic L castPoint (by omega)
  have hcast := shoelaceSum_cast L
  have hfin : |((shoelaceSum L : ℚ) : ℝ)| ≤ |((cross A B C : ℚ) : ℝ)| := by
    have h2M : 2 * M = |((cross A B C : ℚ) : ℝ)| := by
      rw [hMdef]
      ring
    rw [← hcast, hshoe, ← hcyc, ← h2M]
    exact master
  exact_mod_cast hfin

theorem clip_shoelace_bound (t : Tri ℚ) (q : Quad ℚ)
    (hdeg : ¬(clipTriangleByRectangle t q).length < 3) :
    |shoelaceSum (clipTriangleByRectangle t q)| ≤ |cross t.a t.b t.c| := by
  have hcases : clipTriangleByRectangle t q =
      if (dedupPoints (clipCandidates t q)).length < 3 then [] else
        (dedupPoints (clipCandidates t q)).insertionSort
          (angleOrder (centroidX (dedupPoints (clipCandidates t q)))
            (centroidY (dedupPoints (clipCandidates t q)))) := rfl
  set U := dedupPoints (clipCandidates t q) with hU
  by_cases hU3 : U.length < 3
  · exfalso
    apply hdeg
    rw [hcases, if_pos hU3]
    simp
  · have hL : clipTriangleByRectangle t q =
        U.insertionSort (angleOrder (centroidX U) (centroidY U)) := by
      rw [hcases, if_neg hU3]
    rw [hL]
    haveI hto : IsTotal (Point ℚ) (angleOrder (centroidX U) (centroidY U)) :=
      ⟨fun p p' => angLEp_total _ _⟩
    haveI htr : IsTrans (Point ℚ) (angleOrder (centroidX U) (centroidY U)) :=
      ⟨fun a b c h1 h2 => angLEp_trans h1 h2⟩
    have hlenL : (U.insertionSort
        (angleOrder (centroidX U) (centroidY U))).length = U.length :=
      List.length_insertionSort _ _
    have hUinT : ∀ p ∈ U, toVec (castPoint p) ∈ convexHull ℝ
        ({toVec (castPoint t.a), toVec (castPoint t.b), toVec (castPoint t.c)} :
          Set (ℝ × ℝ)) := by
      intro p hp
      rw [hU] at hp
      exact candidate_in_hull (mem_of_mem_dedupPoints hp)
    apply sorted_hull_shoelace_bound
    · omega
    · exact List.sorted_insertionSort _ _
    · intro p hp
      exact hUinT p (((List.perm_insertionSort _ _).mem_iff).1 hp)
    · exact centroid_cast_mem_convex (convex_convexHull ℝ _) (by omega) hUinT

theorem overlap_le_triangleArea (cursor a b : Point ℚ) (q : Quad ℚ) :
    triangleRectangleOverlapArea cursor a b q ≤ triangleArea cursor a b := by
  have htri0 : (0 : ℚ) ≤ triangleArea cursor a b := by
    unfold triangleArea
    positivity
  simp only [triangleRectangleOverlapArea]
  split_ifs with h
  · exact htri0
  · unfold polygonArea
    rw [if_neg h]
    unfold triangleArea
    have key : |shoelaceSum (clipTriangleByRectangle ⟨cursor, a, b⟩ q)| ≤
        |cross cursor a b| := clip_shoelace_bound ⟨cursor, a, b⟩ q h
    linarith

theorem outsideArea_nonneg (cursor : Point ℚ) (q : Quad ℚ) (ij : ℕ × ℕ) :
    0 ≤ outsideArea cursor q ij := by
  unfold outsideArea
  have h := overlap_le_triangleArea cursor (quadVertex q ij.1) (quadVertex q ij.2) q
  linarith

theorem foldl_best_spec {β γ : Type*} (f : β → ℚ) (pv : β → γ) :
    ∀ (l : List β) (a0 : Option γ) (v0 : ℚ),
      (l.foldl (fun acc ij => if acc.2 < f ij then (some (pv ij), f ij) else acc)
        (a0, v0) = (a0, v0) ∧ ∀ j : Fin l.length, f (l.get j) ≤ v0) ∨
      (∃ k : Fin l.length,
        l.foldl (fun acc ij => if acc.2 < f ij then (some (pv ij), f ij) else acc)
          (a0, v0) = (some (pv (l.get k)), f (l.get k)) ∧
        v0 < f (l.get k) ∧
        (∀ j : Fin l.length, f (l.get j) ≤ f (l.get k)) ∧
        (∀ j : Fin l.length, j < k → f (l.get j) < f (l.get k))) := by
  intro l
  induction l with
  | nil =>
    intro a0 v0
    left
    exact ⟨rfl, fun j => absurd j.isLt (by simp)⟩
  | cons b l ih =>
    intro a0 v0
    simp only [List.foldl_cons]
    by_cases hv : v0 < f b
    · rw [if_pos hv]
      rcases ih (some (pv b)) (f b) with ⟨heq, hall⟩ | ⟨k, heq, hlt, hall, hfirst⟩
      · right
        refine ⟨⟨0, by simp⟩, ?_, ?_, ?_, ?_⟩
        · simpa using heq
        · simpa using hv
        · intro j
          induction j using Fin.cases with
          | zero => simp
          | succ j' =>
            simp only [List.get_eq_getElem, Fin.val_succ, List.getElem_cons_succ,
              List.getElem_cons_zero, Fin.val_zero]
            exact hall j'
        · intro j hj
          exact absurd hj (by simp [Fin.lt_def])
      · right
        refine ⟨Fin.succ k, ?_, ?_, ?_, ?_⟩
        · simpa using heq
        · simp only [List.get_eq_getElem, Fin.val_succ, List.getElem_cons_succ]
          exact lt_trans hv hlt
        · intro j
          induction j using Fin.cases with
          | zero =>
            simp only [List.get_eq_getElem, Fin.val_succ, List.getElem_cons_succ,
              Fin.val_zero, List.getElem_cons_zero]
            exact le_of_lt hlt
          | succ j' =>
            simp only [List.get_eq_getElem, Fin.val_succ, List.getElem_cons_succ]
            exact hall j'
        · intro j hj
          induction j using Fin.cases with
          | zero =>
            simp only [List.get_eq_getElem, Fin.val_succ, List.getElem_cons_succ,
              Fin.val_zero, List.getElem_cons_zero]
            exact hlt
          | succ j' =>
            simp only [List.get_eq_getElem, Fin.val_succ, List.getElem_cons_succ]
            exact hfirst j' (Fin.succ_lt_succ_iff.1 hj)
    · rw [if_neg hv]
      rcases ih a0 v0 with ⟨heq, hall⟩ | ⟨k, heq, hlt, hall, hfirst⟩
      · left
        refine ⟨heq, ?_⟩
        intro j
        induction j using Fin.cases with
        | zero =>
          simp only [List.get_eq_getElem, Fin.val_zero, List.getElem_cons_zero]
          exact le_of_not_lt hv
        | succ j' =>
          simp only [List.get_eq_getElem, Fin.val_succ, List.getElem_cons_succ]
          exact hall j'
      · right
        refine ⟨Fin.succ k, ?_, ?_, ?_, ?_⟩
        · simpa using heq
        · simp only [List.get_eq_getElem, Fin.val_succ, List.getElem_cons_succ]
          exact hlt
        · intro j
          induction j using Fin.cases with
          | zero =>
            simp only [List.get_eq_getElem, Fin.val_succ, List.getElem_cons_succ,
              Fin.val_zero, List.getElem_cons_zero]
            exact le_of_lt (lt_of_le_of_lt (le_of_not_lt hv) hlt)
          | succ j' =>
            simp only [List.get_eq_getElem, Fin.val_succ, List.getElem_cons_succ]
            exact hall j'
        · intro j hj
          induction j using Fin.cases with
          | zero =>
            simp only [List.get_eq_getElem, Fin.val_succ, List.getElem_cons_succ,
              Fin.val_zero, List.getElem_cons_zero]
            exact lt_of_le_of_lt (le_of_not_lt hv) hlt
          | succ j' =>
            simp only [List.get_eq_getElem, Fin.val_succ, List.getElem_cons_succ]
            exact hfirst j' (Fin.succ_lt_succ_iff.1 hj)

theorem findBestIntentEdge_spec (cursor : Point ℚ) (q : Quad ℚ) :
    ∃ k : Fin edgePairs.length,
      findBestIntentEdge cursor q =
        some (quadVertex q (edgePairs.get k).1, quadVertex q (edgePairs.get k).2) ∧
      (∀ j : Fin edgePairs.length,
        outsideArea cursor q (edgePairs.get j) ≤ outsideArea cursor q (edgePairs.get k)) ∧
      (∀ j : Fin edgePairs.length, j < k →
        outsideArea cursor q (edgePairs.get j) < outsideArea cursor q (edgePairs.get k)) := by
  have hspec := foldl_best_spec (outsideArea cursor q)
    (fun ij => (quadVertex q ij.1, quadVertex q ij.2)) edgePairs none (-1)
  rcases hspec with ⟨_, hall⟩ | ⟨k, heq, _, hall, hfirst⟩
  · exfalso
    have h0 := hall ⟨0, by decide⟩
    have h1 := outsideArea_nonneg cursor q (edgePairs.get ⟨0, by decide⟩)
    linarith
  · refine ⟨k, ?_, hall, hfirst⟩
    unfold findBestIntentEdge
    rw [heq]

/-- C10: on a well-formed clipping rectangle (vertices in the layout
produced by `getElementVertices`, with left `≤` right and top `≤` bottom),
every point returned by `clipTriangleByRectangle` satisfies
`pointInRectangle`: collected triangle vertices pass the filter, and every
intersection point lies on one of the four rectangle edges. -/
theorem C10_clip_points_in_rectangle (t : Tri ℚ) (x0 y0 x1 y1 : ℚ)
    (hx : x0 ≤ x1) (hy : y0 ≤ y1) :
    ∀ p ∈ clipTriangleByRectangle t
      (⟨⟨x0, y0⟩, ⟨x1, y0⟩, ⟨x1, y1⟩, ⟨x0, y1⟩⟩ : Quad ℚ),
      pointInRectangle p (⟨⟨x0, y0⟩, ⟨x1, y0⟩, ⟨x1, y1⟩, ⟨x0, y1⟩⟩ : Quad ℚ)
        = true := by
  intro p hp
  rcases mem_clip_structure hp with ⟨_, hin⟩ | ⟨te, _, re, hre, hsome⟩
  · exact hin
  · obtain ⟨hd, _, _, hub0, hub1, hpeq⟩ := lineSegmentIntersection_eq_some_iff hsome
    obtain ⟨hxeq, hyeq⟩ := inter_point_on_second_segment hd
    have hpx : p.x = re.1.x + interUB te.1 te.2 re.1 re.2 * (re.2.x - re.1.x) := by
      rw [hpeq]
      exact hxeq
    have hpy : p.y = re.1.y + interUB te.1 te.2 re.1 re.2 * (re.2.y - re.1.y) := by
      rw [hpeq]
      exact hyeq
    have hcx := convex_combo_between re.1.x re.2.x hub0 hub1
    have hcy := convex_combo_between re.1.y re.2.y hub0 hub1
    rw [← hpx] at hcx
    rw [← hpy] at hcy
    simp only [rectEdges, List.mem_cons, List.mem_singleton,
      List.not_mem_nil, or_false] at hre
    simp only [pointInRectangle, Bool.and_eq_true, decide_eq_true_eq,
      min_self, max_self]
    rcases hre with h | h | h | h <;> subst h <;> dsimp only at hcx hcy <;>
      obtain ⟨h1, h2⟩ := hcx <;> obtain ⟨h3, h4⟩ := hcy
    · rw [min_eq_left hx] at h1
      rw [max_eq_right hx] at h2
      rw [min_self] at h3
      rw [max_self] at h4
      exact ⟨⟨⟨h1, h2⟩, h3⟩, by linarith⟩
    · rw [min_self] at h1
      rw [max_self] at h2
      rw [min_eq_left hy] at h3
      rw [max_eq_right hy] at h4
      exact ⟨⟨⟨by linarith, h2⟩, h3⟩, h4⟩
    · rw [min_eq_right hx] at h1
      rw [max_eq_left hx] at h2
      rw [min_self] at h3
      rw [max_self] at h4
      exact ⟨⟨⟨h1, h2⟩, by linarith⟩, h4⟩
    · rw [min_self] at h1
      rw [max_self] at h2
      rw [min_eq_right hy] at h3
      rw [max_eq_left hy] at h4
      exact ⟨⟨⟨h1, by linarith⟩, h3⟩, h4⟩

unseal Nat.gcd Rat.add Rat.sub Rat.mul Rat.inv in
/-- C10 witness: a clip of a concrete triangle against the sample rectangle
contains the intersection point `(200, 122)`, which lies in the rectangle. -/
theorem C10_clip_points_in_rectangle_witness :
    pointInRectangle (⟨200, 122⟩ : Point ℚ)
      (⟨⟨200, 100⟩, ⟨300, 100⟩, ⟨300, 300⟩, ⟨200, 300⟩⟩ : Quad ℚ) = true :=
  C10_clip_points_in_rectangle ⟨⟨50, 155⟩, ⟨300, 100⟩, ⟨300, 300⟩⟩ 200 100 300 300
    (by norm_num) (by norm_num) ⟨200, 122⟩ (by decide)

/-- C7: `pointInTriangle` is invariant under any cyclic permutation of the
triangle vertices, and it returns `true` exactly when the three sub-cross
products `cross p a b`, `cross p b c`, `cross p c a` do not contain both a
strictly negative and a strictly positive value, so boundary points count
as inside. -/
theorem C7_pointInTriangle_cyclic_sign (p a b c : Point ℚ) :
    pointInTriangle p a b c = pointInTriangle p b c a ∧
    pointInTriangle p a b c = pointInTriangle p c a b ∧
    (pointInTriangle p a b c = true ↔
      ¬((cross p a b < 0 ∨ cross p b c < 0 ∨ cross p c a < 0) ∧
        (0 < cross p a b ∨ 0 < cross p b c ∨ 0 < cross p c a))) := by
  have hrot : ∀ x y z : Bool, (x || y || z) = (y || z || x) := by decide
  refine ⟨?_, ?_, ?_⟩
  · simp only [pointInTriangle]
    rw [hrot (decide (cross p a b < 0)), hrot (decide (0 < cross p a b))]
  · simp only [pointInTriangle]
    rw [← hrot (decide (cross p c a < 0)), ← hrot (decide (0 < cross p c a))]
  · simp only [pointInTriangle, Bool.not_eq_true', Bool.and_eq_false_iff,
      Bool.or_eq_false_iff, decide_eq_false_iff_not]
    tauto

/-- C6: `lineSegmentIntersection` returns `none` exactly when the absolute
parametric denominator is below the `1e-10` epsilon or one of the computed
parameters `ua`, `ub` lies outside `[0, 1]`; otherwise it returns the point
`p1 + ua * (p2 - p1)`. -/
theorem C6_lineSegmentIntersection_none_iff (p1 p2 p3 p4 : Point ℚ) :
    (lineSegmentIntersection p1 p2 p3 p4 = none ↔
      |interDenom p1 p2 p3 p4| < denomEps ∨
        interUA p1 p2 p3 p4 < 0 ∨ 1 < interUA p1 p2 p3 p4 ∨
        interUB p1 p2 p3 p4 < 0 ∨ 1 < interUB p1 p2 p3 p4) ∧
    (¬(|interDenom p1 p2 p3 p4| < denomEps ∨
        interUA p1 p2 p3 p4 < 0 ∨ 1 < interUA p1 p2 p3 p4 ∨
        interUB p1 p2 p3 p4 < 0 ∨ 1 < interUB p1 p2 p3 p4) →
      lineSegmentIntersection p1 p2 p3 p4 =
        some ⟨p1.x + interUA p1 p2 p3 p4 * (p2.x - p1.x),
              p1.y + interUA p1 p2 p3 p4 * (p2.y - p1.y)⟩) := by
  constructor
  · simp only [lineSegmentIntersection]
    split_ifs with h1 h2
    · simp [h1]
    · exact iff_of_true rfl (Or.inr h2)
    · constructor
      · intro h
        exact absurd h (by simp)
      · rintro (h | h)
        · exact absurd h h1
        · exact absurd h h2
  · intro h
    push_neg at h
    simp only [lineSegmentIntersection]
    rw [if_neg (not_lt.mpr h.1), if_neg]
    push_neg
    exact ⟨h.2.1, h.2.2.1, h.2.2.2.1, h.2.2.2.2⟩

/-- C6 witness: two crossing diagonal segments produce their midpoint. -/
theorem C6_lineSegmentIntersection_none_iff_witness :
    lineSegmentIntersection (⟨0, 0⟩ : Point ℚ) ⟨2, 2⟩ ⟨0, 2⟩ ⟨2, 0⟩ = some ⟨1, 1⟩ := by
  have h := (C6_lineSegmentIntersection_none_iff
    (⟨0, 0⟩ : Point ℚ) ⟨2, 2⟩ ⟨0, 2⟩ ⟨2, 0⟩).2 (by
      unfold interUA interUB interDenom denomEps
      norm_num)
  rw [h]
  unfold interUA interDenom
  norm_num

/-- C3: after processing any pointer-move event whose cursor point lies
inside the target rectangle, the engine's aiming state is `false`,
regardless of the prior state. -/
theorem C3_inside_rectangle_not_aiming (cfg : EngineConfig) (sqrtFn : ℚ → ℚ)
    (s : EngineState) (t : ℚ) (p : Point ℚ) (el : Rect ℚ)
    (hel : cfg.element = some el)
    (hin : pointInRectangle p (getElementVertices el cfg.scrollX cfg.scrollY) = true) :
    (onMouseMove cfg sqrtFn s t p).isAiming = false := by
  cases hold : s.lastCursor <;>
    simp [onMouseMove, recalc, hold, hel, hin, setIsAiming]

unseal Nat.gcd Rat.add Rat.sub Rat.mul Rat.inv in
/-- C3 witness: moving to `(250, 200)`, inside the sample rectangle,
yields a non-aiming state. -/
theorem C3_inside_rectangle_not_aiming_witness :
    (onMouseMove sampleConfig (fun _ => 0) sampleAimingState 0 ⟨250, 200⟩).isAiming
      = false :=
  C3_inside_rectangle_not_aiming sampleConfig (fun _ => 0) sampleAimingState 0
    ⟨250, 200⟩ ⟨200, 100, 300, 300⟩ rfl (by decide)

/-- C2: with cursor history and a registered element, cursor outside the
rectangle and an intent edge found, the per-move recalculation commits a
transition to aiming immediately regardless of the accumulated movement,
commits a transition out of aiming only when the accumulated movement is at
least the tolerance, and below the tolerance returns the state completely
unchanged (aiming retained, accumulator not reset, nothing committed). -/
theorem C2_tolerance_gate (cfg : EngineConfig) (s : EngineState)
    (cursor prev : Point ℚ) (el : Rect ℚ) (edge : Point ℚ × Point ℚ)
    (hc : s.lastCursor = some cursor) (hp : s.prevCursor = some prev)
    (he : cfg.element = some el)
    (hout : pointInRectangle cursor (getElementVertices el cfg.scrollX cfg.scrollY)
      = false)
    (hedge : findBestIntentEdge cursor (getElementVertices el cfg.scrollX cfg.scrollY)
      = some edge) :
    (isMovingTowardTriangle prev cursor edge.1 edge.2 = true →
      recalc cfg s = { setIsAiming true s with
        accumulatedMovement := 0, lastRecalcCursor := some cursor }) ∧
    (s.isAiming = true → isMovingTowardTriangle prev cursor edge.1 edge.2 = false →
      s.accumulatedMovement < cfg.tolerance → recalc cfg s = s) ∧
    (s.isAiming = true → isMovingTowardTriangle prev cursor edge.1 edge.2 = false →
      cfg.tolerance ≤ s.accumulatedMovement →
      recalc cfg s = { setIsAiming false s with
        accumulatedMovement := 0, lastRecalcCursor := some cursor }) := by
  refine ⟨fun ha => ?_, fun hA ha hacc => ?_, fun hA ha hacc => ?_⟩
  · simp [recalc, hc, hp, he, hout, hedge, ha]
  · simp [recalc, hc, hp, he, hout, hedge, ha, hA, hacc]
  · simp [recalc, hc, hp, he, hout, hedge, ha, hA, not_lt.mpr hacc]

unseal Nat.gcd Rat.add Rat.sub Rat.mul Rat.inv in
/-- C2 witness: in the sample aiming state the cursor moves away from the
rectangle with accumulated movement `5` below the tolerance `20`, and the
recalculation returns the state unchanged. -/
theorem C2_tolerance_gate_witness :
    recalc sampleConfig sampleAimingState = sampleAimingState :=
  (C2_tolerance_gate sampleConfig sampleAimingState ⟨50, 155⟩ ⟨100, 160⟩
    ⟨200, 100, 300, 300⟩ (⟨200, 100⟩, ⟨200, 300⟩) rfl rfl rfl
    (by decide) (by decide)).2.1 rfl (by decide) (by decide)

unseal Nat.gcd Rat.add Rat.sub Rat.mul Rat.inv in
/-- C1 is refuted by the code: `setIsAiming` invokes the handler on every
committed recalculation, even when the committed value equals the previous
one.  Starting from the initial non-aiming state, a first move (committing
`false` again) already produces a handler call with `false`, and a second
move away from the target (committing `false` again) produces a second
call, while the aiming value never changes.  The claim (and the hook's own
documentation) predicts no handler call at all on this trace. -/
theorem C1_unconditional_notification :
    initialState.isAiming = false ∧
    (onMouseMove sampleConfig (fun _ => 0) initialState 0 ⟨10, 10⟩).isAiming = false ∧
    (onMouseMove sampleConfig (fun _ => 0) initialState 0 ⟨10, 10⟩).notifications
      = [false] ∧
    (onMouseMove sampleConfig (fun _ => 0)
        (onMouseMove sampleConfig (fun _ => 0) initialState 0 ⟨10, 10⟩) 1
        ⟨5, 5⟩).isAiming = false ∧
    (onMouseMove sampleConfig (fun _ => 0)
        (onMouseMove sampleConfig (fun _ => 0) initialState 0 ⟨10, 10⟩) 1
        ⟨5, 5⟩).notifications = [false, false] := by
  decide

/-- C8: after any pointer-move event the idle timer is rearmed to exactly
`idleTimeout` after the event time (cancelling any pending deadline); with
no further moves the observed aiming value equals the committed post-move
value strictly before the deadline and is `false` from the deadline on; and
the timer firing forces not-aiming and resets the movement accumulator and
the recalculation baseline. -/
theorem C8_idle_timeout (cfg : EngineConfig) (sqrtFn : ℚ → ℚ) (s : EngineState)
    (t : ℚ) (p : Point ℚ) :
    (onMouseMove cfg sqrtFn s t p).idleDeadline = some (t + cfg.idleTimeout) ∧
    (∀ δ : ℚ, δ < cfg.idleTimeout →
      aimingAt (onMouseMove cfg sqrtFn s t p) (t + δ)
        = (onMouseMove cfg sqrtFn s t p).isAiming) ∧
    (∀ δ : ℚ, cfg.idleTimeout ≤ δ →
      aimingAt (onMouseMove cfg sqrtFn s t p) (t + δ) = false) ∧
    (fireIdleTimeout (onMouseMove cfg sqrtFn s t p)).isAiming = false ∧
    (fireIdleTimeout (onMouseMove cfg sqrtFn s t p)).accumulatedMovement = 0 ∧
    (fireIdleTimeout (onMouseMove cfg sqrtFn s t p)).lastRecalcCursor = none := by
  refine ⟨by simp [onMouseMove], fun δ hδ => ?_, fun δ hδ => ?_, ?_, ?_, ?_⟩
  · have hlt : ¬(t + cfg.idleTimeout ≤ t + δ) := by
      simp only [add_le_add_iff_left, not_le]
      exact hδ
    simp [onMouseMove, aimingAt, hlt]
  · have hle : t + cfg.idleTimeout ≤ t + δ := add_le_add_left hδ t
    simp [onMouseMove, aimingAt, hle]
  · simp [fireIdleTimeout, setIsAiming]
  · simp [fireIdleTimeout, setIsAiming]
  · simp [fireIdleTimeout, setIsAiming]

/-- C8 witness: with `idleTimeout = 500` and a move at time `0`, the
observation at `499` ms equals the committed value, and the observation at
`500` ms is `false`. -/
theorem C8_idle_timeout_witness :
    aimingAt (onMouseMove sampleConfig (fun _ => 0) initialState 0 ⟨10, 10⟩) (0 + 499)
      = (onMouseMove sampleConfig (fun _ => 0) initialState 0 ⟨10, 10⟩).isAiming ∧
    aimingAt (onMouseMove sampleConfig (fun _ => 0) initialState 0 ⟨10, 10⟩) (0 + 500)
      = false :=
  ⟨(C8_idle_timeout sampleConfig (fun _ => 0) initialState 0 ⟨10, 10⟩).2.1 499
      (by norm_num [sampleConfig]),
    (C8_idle_timeout sampleConfig (fun _ => 0) initialState 0 ⟨10, 10⟩).2.2.1 500
      (by norm_num [sampleConfig])⟩

/-- C5: for every triangle (cursor, edgeA, edgeB) and every rectangle vertex
tuple, the polygon produced by `clipTriangleByRectangle` has `polygonArea` at
most the `triangleArea` of the original triangle: the clipped intersection
never has larger area than the triangle it was clipped from. -/
theorem C5_clip_area_le_triangle (t : Tri ℚ) (q : Quad ℚ) :
    polygonArea (clipTriangleByRectangle t q) ≤ triangleArea t.a t.b t.c := by
  by_cases h : (clipTriangleByRectangle t q).length < 3
  · unfold polygonArea
    rw [if_pos h]
    unfold triangleArea
    positivity
  · unfold polygonArea
    rw [if_neg h]
    unfold triangleArea
    have key := clip_shoelace_bound t q h
    linarith

unseal Nat.gcd Rat.add Rat.sub Rat.mul Rat.inv in
/-- C4: for every cursor and rectangle vertex tuple, `findBestIntentEdge`
returns a non-null pair taken from the six canonical vertex pairs (the
`edgePairs` iteration order `(0,1),(0,2),(0,3),(1,2),(1,3),(2,3)`); the
returned pair is the first one attaining the maximal outside area (the fold
comparison is strict `>`, so earlier pairs win ties); and for cursors far
outside the sample rectangle along one axis on each of the four sides, the
returned edge is the near side facing the cursor. -/
theorem C4_findBestIntentEdge :
    (∀ (cursor : Point ℚ) (q : Quad ℚ), ∃ k : Fin edgePairs.length,
      findBestIntentEdge cursor q =
        some (quadVertex q (edgePairs.get k).1, quadVertex q (edgePairs.get k).2) ∧
      (∀ j : Fin edgePairs.length,
        outsideArea cursor q (edgePairs.get j) ≤
          outsideArea cursor q (edgePairs.get k)) ∧
      (∀ j : Fin edgePairs.length, j < k →
        outsideArea cursor q (edgePairs.get j) <
          outsideArea cursor q (edgePairs.get k))) ∧
    findBestIntentEdge (⟨50, 155⟩ : Point ℚ) (getElementVertices (⟨200, 100, 300, 300⟩ : Rect ℚ) 0 0) =
      some (⟨200, 100⟩, ⟨200, 300⟩) ∧
    findBestIntentEdge (⟨500, 200⟩ : Point ℚ) (getElementVertices (⟨200, 100, 300, 300⟩ : Rect ℚ) 0 0) =
      some (⟨300, 100⟩, ⟨300, 300⟩) ∧
    findBestIntentEdge (⟨250, 50⟩ : Point ℚ) (getElementVertices (⟨200, 100, 300, 300⟩ : Rect ℚ) 0 0) =
      some (⟨200, 100⟩, ⟨300, 100⟩) ∧
    findBestIntentEdge (⟨250, 500⟩ : Point ℚ) (getElementVertices (⟨200, 100, 300, 300⟩ : Rect ℚ) 0 0) =
      some (⟨300, 300⟩, ⟨200, 300⟩) :=
  ⟨findBestIntentEdge_spec, by decide, by decide, by decide, by decide⟩

/-- C9: after a zero-length move (current cursor equal to the previous one)
with the cursor outside the target rectangle and a registered element, the
intent-triangle membership test holds for every possible edge (the apex of
the tested triangle coincides with the tested point, so two of the three
cross products vanish), and the committed state of the recalculation is
`AIMING`. -/
theorem C9_zero_length_move_aiming (cfg : EngineConfig) (s : EngineState)
    (p : Point ℚ) (el : Rect ℚ)
    (hlc : s.lastCursor = some p) (hpc : s.prevCursor = some p)
    (hel : cfg.element = some el)
    (hout : pointInRectangle p (getElementVertices el cfg.scrollX cfg.scrollY) = false) :
    (∀ eA eB : Point ℚ, isMovingTowardTriangle p p eA eB = true) ∧
    (recalc cfg s).isAiming = true := by
  have hmember : ∀ eA eB : Point ℚ, isMovingTowardTriangle p p eA eB = true := by
    intro eA eB
    simp only [isMovingTowardTriangle, pointInTriangle]
    have h1 : cross p p eA = 0 := by unfold cross; ring
    have h3 : cross p eB p = 0 := by unfold cross; ring
    rw [h1, h3]
    rcases lt_trichotomy (cross p eA eB) 0 with hc | hc | hc
    · simp [hc, not_lt.2 (le_of_lt hc), lt_irrefl]
    · simp [hc, lt_irrefl]
    · simp [hc, not_lt.2 (le_of_lt hc), lt_irrefl]
  refine ⟨hmember, ?_⟩
  unfold recalc
  rw [hlc, hpc, hel]
  obtain ⟨k, heq, _, _⟩ := findBestIntentEdge_spec p
    (getElementVertices el cfg.scrollX cfg.scrollY)
  simp only [hout, Bool.false_eq_true, if_false, heq, hmember, Bool.not_true,
    Bool.and_false, Bool.false_and, setIsAiming]

end Theorems

unseal Nat.gcd Rat.add Rat.sub Rat.mul Rat.inv in
/-- Concrete instantiation of `C9_zero_length_move_aiming`: the sample
configuration with a repeated cursor at `(50, 155)`. -/
theorem C9_zero_length_move_aiming_witness :
    (recalc sampleConfig
      { sampleAimingState with prevCursor := some ⟨50, 155⟩ }).isAiming = true :=
  (C9_zero_length_move_aiming sampleConfig
    { sampleAimingState with prevCursor := some ⟨50, 155⟩ }
    ⟨50, 155⟩ ⟨200, 100, 300, 300⟩ rfl rfl rfl (by decide)).2

end ReactHooks
